import Mathlib

/-!
Shallow embedding of the 9×9 Sudoku solver: the grid store and its derived
row/column/square views, the validity and candidate computations, the four
constraint-propagation rules, and the backtracking search with its
mutate/undo (undo-log) discipline, together with the bounds-checked public
accessors.  Theorems about the claims of the specification follow the
definitions.
-/

/-- A board is the `number[][]` cell store: a list of rows of cell values. -/
abbrev Board := List (List Nat)

/-- `transpose(matrix)`: `matrix.map((_, i) => matrix.map((row) => row[i]))`. -/
def transpose (m : Board) : Board :=
  (List.range m.length).map (fun i => m.map (fun row => row.getD i 0))

/-- `isUnique(list)`: the nonzero members of the list are pairwise distinct
(`new Set(list.filter(Boolean)).size === list.filter(Boolean).length`). -/
def isUnique (l : List Nat) : Bool :=
  (l.filter (fun v => v != 0)).dedup.length == (l.filter (fun v => v != 0)).length

/-- `difference(...arrays)`: fold of `a.filter((x) => !b.includes(x))` over the
remaining arrays, starting from the first array. -/
def difference (a : List Nat) (arrays : List (List Nat)) : List Nat :=
  arrays.foldl (fun acc bs => acc.filter (fun x => !(bs.contains x))) a

namespace Sudoku

/-- Read `this.#board[y][x]` (defaulting to 0 out of range; internal call
sites are in bounds, and the public `get` guards the bounds in `getE`). -/
def getCell (b : Board) (x y : Nat) : Nat := (b.getD y []).getD x 0

/-- Write `this.#board[y][x] = value` (a no-op out of range; internal call
sites are in bounds, and the public `set` guards the bounds in `setE`). -/
def setCell (b : Board) (x y v : Nat) : Board := b.set y ((b.getD y []).set x v)

/-- `get #rows`: the row views (each a copy; copies are identities here). -/
def rows (b : Board) : Board := b

/-- `get #columns`: the column views. -/
def columns (b : Board) : Board := transpose b

/-- `get #squares`: square `i` holds rows `⌊i/3⌋·3..+3`, columns `(i%3)·3..+3`. -/
def squares (b : Board) : Board :=
  (List.range 9).map (fun i =>
    ((b.drop ((i / 3) * 3)).take 3).flatMap
      (fun row => (row.drop ((i % 3) * 3)).take 3))

/-- `get okay`: every row, column and square passes `isUnique`. -/
def okay (b : Board) : Bool :=
  (rows b).all isUnique && (columns b).all isUnique && (squares b).all isUnique

/-- `get solved`: okay and completely filled. -/
def solved (b : Board) : Bool :=
  okay b && b.flatten.all (fun v => v != 0)

/-- `candidates(x, y)` past its bounds guard (the guard lives in
`candidatesE`): empty for a filled cell, otherwise 1..9 filtered against the
cell's row, column and square. -/
def candidates (b : Board) (x y : Nat) : List Nat :=
  if getCell b x y != 0 then []
  else ((((List.range 9).map (fun v => v + 1)).filter
      (fun v => !((rows b).getD y []).contains v)).filter
      (fun v => !((columns b).getD x []).contains v)).filter
      (fun v => !((squares b).getD ((y / 3) * 3 + x / 3) []).contains v)

/-- `findIndex((row) => row.includes(0))` with JS's `-1` for "not found". -/
def findZeroRow : Nat → Board → Int
  | _, [] => -1
  | k, row :: rest => if row.contains 0 then (k : Int) else findZeroRow (k + 1) rest

/-- `#nextOpenCell()`: first row containing a 0, then `indexOf(0)` in it. -/
def nextOpenCell (b : Board) : Int × Int :=
  (if findZeroRow 0 (rows b) ≥ 0
    then (((rows b).getD (findZeroRow 0 (rows b)).toNat []).indexOf 0 : Nat)
    else (-1 : Int),
   findZeroRow 0 (rows b))

/-- The body of `#rule1`'s double loop: visit the given cells in order;
whenever the current board gives a cell exactly one candidate, fill it with
that candidate and log the cell, continuing the same pass. -/
def scanCells : List (Nat × Nat) → Board → Board × List (Nat × Nat)
  | [], b => (b, [])
  | (j, i) :: rest, b =>
    let cs := candidates b j i
    if cs.length = 1 then
      let next := scanCells rest (setCell b j i (cs.headD 0))
      (next.1, (j, i) :: next.2)
    else scanCells rest b

/-- The cells `#rule1` visits: `for (i = y; i < 9; i++) for (j = x + 1; j < 9; j++)`. -/
def rule1Cells (x y : Nat) : List (Nat × Nat) :=
  (List.range' y (9 - y)).flatMap
    (fun i => (List.range' (x + 1) (8 - x)).map (fun j => (j, i)))

/-- `#rule1(x, y)`: forward naked singles over `rule1Cells`. -/
def rule1 (b : Board) (x y : Nat) : Board × List (Nat × Nat) :=
  scanCells (rule1Cells x y) b

/-- The `allowed` array of `#rule2`/`#rule3`/`#rule4` for one cell group: the
candidates of every cell of the group, computed up front at group entry. -/
def allowedOf (b : Board) (cells : List (Nat × Nat)) : List (List Nat) :=
  cells.map (fun p => candidates b p.1 p.2)

/-- The `diffs` array: each cell's allowed values minus every other cell's. -/
def diffsOf (b : Board) (cells : List (Nat × Nat)) : List (List Nat) :=
  (List.range cells.length).map
    (fun j => difference ((allowedOf b cells).getD j []) ((allowedOf b cells).eraseIdx j))

/-- Shared body of `#rule2`/`#rule3`/`#rule4` for one cell group: compute
`allowed` and `diffs` up front, then assign each single leftover value; the
assignment loop mutates the board while `diffs` stays as computed at entry. -/
def hiddenSingles (b : Board) (cells : List (Nat × Nat)) : Board × List (Nat × Nat) :=
  (List.range cells.length).foldl
    (fun acc j =>
      if ((diffsOf b cells).getD j []).length = 1 then
        (setCell acc.1 (cells.getD j (0, 0)).1 (cells.getD j (0, 0)).2
          (((diffsOf b cells).getD j []).headD 0), acc.2 ++ [cells.getD j (0, 0)])
      else acc)
    (b, [])

/-- The cells of row `i` in column order (row length is 9 for constructed
boards, so the row's index range is 0..8). -/
def rowCells (i : Nat) : List (Nat × Nat) := (List.range 9).map (fun j => (j, i))

/-- The cells of column `j` in row order. -/
def colCells (j : Nat) : List (Nat × Nat) := (List.range 9).map (fun i => (j, i))

/-- The cells of square `k`, by the linear indices
`[0,1,2,9,10,11,18,19,20].map((v) => v + 3k + 18⌊k/3⌋)` decoded as
`(index % 9, ⌊index / 9⌋)`. -/
def boxCells (k : Nat) : List (Nat × Nat) :=
  (([0, 1, 2, 9, 10, 11, 18, 19, 20].map (fun v => v + 3 * k + 18 * (k / 3))).map
    (fun idx => (idx % 9, idx / 9)))

/-- `#rule2(x, y)`: hidden singles on each row `i ≥ y`. -/
def rule2 (b : Board) (x y : Nat) : Board × List (Nat × Nat) :=
  (List.range' y (9 - y)).foldl
    (fun acc i =>
      ((hiddenSingles acc.1 (rowCells i)).1, acc.2 ++ (hiddenSingles acc.1 (rowCells i)).2))
    (b, [])

/-- `#rule3(x, y)`: hidden singles on each column `j ≥ x`. -/
def rule3 (b : Board) (x y : Nat) : Board × List (Nat × Nat) :=
  (List.range' x (9 - x)).foldl
    (fun acc j =>
      ((hiddenSingles acc.1 (colCells j)).1, acc.2 ++ (hiddenSingles acc.1 (colCells j)).2))
    (b, [])

/-- `#rule4(x, y)`: hidden singles on each square `k ≥ (⌊y/3⌋·3 + ⌊x/3⌋)`. -/
def rule4 (b : Board) (x y : Nat) : Board × List (Nat × Nat) :=
  (List.range' ((y / 3) * 3 + x / 3) (9 - ((y / 3) * 3 + x / 3))).foldl
    (fun acc k =>
      ((hiddenSingles acc.1 (boxCells k)).1, acc.2 ++ (hiddenSingles acc.1 (boxCells k)).2))
    (b, [])

/-- One candidate trial's propagation phase: `modified = [[x, y]]`, then the
fills of rules 1–4 in order, all appended to the same undo log. -/
def trialRules (b : Board) (x y : Nat) : Board × List (Nat × Nat) :=
  ((rule4 (rule3 (rule2 (rule1 b x y).1 x y).1 x y).1 x y).1,
   (x, y) :: ((rule1 b x y).2 ++ (rule2 (rule1 b x y).1 x y).2 ++
     (rule3 (rule2 (rule1 b x y).1 x y).1 x y).2 ++
     (rule4 (rule3 (rule2 (rule1 b x y).1 x y).1 x y).1 x y).2))

/-- `modified.forEach(([x, y]) => board.delete(x, y))`: drain the undo log. -/
def drain (b : Board) (log : List (Nat × Nat)) : Board :=
  log.foldl (fun acc p => setCell acc p.1 p.2 0) b

/-- The number of empty cells; `countZeros b + 1` bounds the recursion depth
of the search (every recursive call starts with strictly fewer empty cells,
since the trial fills its pivot before recursing). -/
def countZeros (b : Board) : Nat := b.flatten.count 0

/-- The recursive `backtrack` closure, threading the single working board and
accumulating solution snapshots; `fuel` is the embedding's recursion bound.
Each trial records the pivot and the rule fills in the undo log, assigns the
candidate, recurses, then drains the log, appending the solutions found. -/
def backtrack : Nat → Board → Board × List Board
  | 0, b => (b, [])
  | fuel + 1, b =>
    if okay b = false then (b, [])
    else if solved b then (b, [b])
    else if (nextOpenCell b).1 = -1 ∨ (nextOpenCell b).2 = -1 then (b, [])
    else
      (candidates b (nextOpenCell b).1.toNat (nextOpenCell b).2.toNat).foldl
        (fun acc c =>
          (drain (backtrack fuel (setCell
              (trialRules acc.1 (nextOpenCell b).1.toNat (nextOpenCell b).2.toNat).1
              (nextOpenCell b).1.toNat (nextOpenCell b).2.toNat c)).1
            (trialRules acc.1 (nextOpenCell b).1.toNat (nextOpenCell b).2.toNat).2,
           acc.2 ++ (backtrack fuel (setCell
              (trialRules acc.1 (nextOpenCell b).1.toNat (nextOpenCell b).2.toNat).1
              (nextOpenCell b).1.toNat (nextOpenCell b).2.toNat c)).2))
        (b, [])

/-- `solve()`: `undefined` when not okay, else search a working copy
(`new Sudoku(this.#board)`) and return the snapshots, or `undefined` if none. -/
def solve (b : Board) : Option (List Board) :=
  if okay b = false then none
  else if ((backtrack (countZeros (rows b) + 1) (rows b)).2).isEmpty then none
  else some ((backtrack (countZeros (rows b) + 1) (rows b)).2)

/-- A call `s.solve()` as the caller sees it: the result paired with the
caller's `#board` after the call returns (the method reads `this.#board` to
build its working copy and never writes it). -/
def solveCall (b : Board) : Option (List Board) × Board :=
  if okay b = false then (none, b)
  else if ((backtrack (countZeros (rows b) + 1) (rows b)).2).isEmpty then (none, b)
  else (some ((backtrack (countZeros (rows b) + 1) (rows b)).2), b)

/-- The two `RangeError` conditions of the public accessors. -/
inductive SudokuError where
  | outOfBounds
  | invalidValue
  deriving DecidableEq

/-- `get(x, y)` with its bounds guard, coordinates as JS integers. -/
def getE (b : Board) (x y : Int) : Except SudokuError Nat :=
  if x < 0 ∨ x > 8 ∨ y < 0 ∨ y > 8 then .error .outOfBounds
  else .ok (getCell b x.toNat y.toNat)

/-- `set(x, y, value)` with its bounds guard and then its value guard. -/
def setE (b : Board) (x y value : Int) : Except SudokuError Board :=
  if x < 0 ∨ x > 8 ∨ y < 0 ∨ y > 8 then .error .outOfBounds
  else if value < 0 ∨ value > 9 then .error .invalidValue
  else .ok (setCell b x.toNat y.toNat value.toNat)

/-- `delete(x, y)` with its bounds guard. -/
def deleteE (b : Board) (x y : Int) : Except SudokuError Board :=
  if x < 0 ∨ x > 8 ∨ y < 0 ∨ y > 8 then .error .outOfBounds
  else .ok (setCell b x.toNat y.toNat 0)

/-- `candidates(x, y)` with its bounds guard. -/
def candidatesE (b : Board) (x y : Int) : Except SudokuError (List Nat) :=
  if x < 0 ∨ x > 8 ∨ y < 0 ∨ y > 8 then .error .outOfBounds
  else .ok (candidates b x.toNat y.toNat)

/-- The constructor's invariant: exactly 9×9 with every cell value in [0,9]. -/
def Wf (b : Board) : Prop :=
  b.length = 9 ∧ ∀ row ∈ b, row.length = 9 ∧ ∀ v ∈ row, v ≤ 9

instance : DecidablePred Wf := fun b => by unfold Wf; infer_instance

/-- The solutions component of `backtrack` computed without threading the
working board: each trial recurses directly on the pre-trial board with the
trial's writes applied, which is equivalent because draining the undo log
restores the threaded board (`backtrack_eq_sols`). -/
def backtrackSols : Nat → Board → List Board
  | 0, _ => []
  | fuel + 1, b =>
    if okay b = false then []
    else if solved b then [b]
    else if (nextOpenCell b).1 = -1 ∨ (nextOpenCell b).2 = -1 then []
    else
      (candidates b (nextOpenCell b).1.toNat (nextOpenCell b).2.toNat).foldl
        (fun acc c => acc ++ backtrackSols fuel
          (setCell (trialRules b (nextOpenCell b).1.toNat (nextOpenCell b).2.toNat).1
            (nextOpenCell b).1.toNat (nextOpenCell b).2.toNat c)) []

/-- `h` agrees with `g` on every nonzero (clue) cell of `g`. -/
def Extends (g h : Board) : Prop :=
  ∀ x y : Nat, x < 9 → y < 9 → getCell g x y ≠ 0 → getCell h x y = getCell g x y

/-- `h` is a completion of `g`: a well-formed solved grid that keeps all of
`g`'s clues (an assignment of the empty cells of `g` yielding a solved grid). -/
def Completion (g h : Board) : Prop :=
  Wf h ∧ solved h = true ∧ Extends g h

/-- Two boards with the same row structure (same number of rows, rows of the
same lengths). -/
def sameShape (b b' : Board) : Prop :=
  b.length = b'.length ∧ ∀ i : Nat, (b.getD i []).length = (b'.getD i []).length

/-- Two cells lie in a common unit: same row, same column, or same square. -/
def SameGroup (p q : Nat × Nat) : Prop :=
  p.2 = q.2 ∨ p.1 = q.1 ∨ (p.1 / 3 = q.1 / 3 ∧ p.2 / 3 = q.2 / 3)

/-- `okay` said cell-wise: no two distinct cells of a common unit hold the
same nonzero value. -/
def OkaySpec (b : Board) : Prop :=
  ∀ p q : Nat × Nat, p.1 < 9 → p.2 < 9 → q.1 < 9 → q.2 < 9 → p ≠ q →
    SameGroup p q → getCell b p.1 p.2 ≠ 0 → getCell b p.1 p.2 ≠ getCell b q.1 q.2

/-- Value `v` occurs somewhere in row `y`. -/
def appearsInRow (b : Board) (y v : Nat) : Prop := ∃ j, j < 9 ∧ getCell b j y = v

instance (b : Board) (y v : Nat) : Decidable (appearsInRow b y v) := by
  unfold appearsInRow; infer_instance

/-- Value `v` occurs somewhere in column `x`. -/
def appearsInCol (b : Board) (x v : Nat) : Prop := ∃ i, i < 9 ∧ getCell b x i = v

instance (b : Board) (x v : Nat) : Decidable (appearsInCol b x v) := by
  unfold appearsInCol; infer_instance

/-- Value `v` occurs somewhere in the 3×3 box containing `(x, y)`. -/
def appearsInBox (b : Board) (x y v : Nat) : Prop :=
  ∃ j, j < 9 ∧ ∃ i, i < 9 ∧ j / 3 = x / 3 ∧ i / 3 = y / 3 ∧ getCell b j i = v

instance (b : Board) (x y v : Nat) : Decidable (appearsInBox b x y v) := by
  unfold appearsInBox; infer_instance

/-- The candidate list as the specification words it: the values 1..9 that
appear as a nonzero value neither in row `y`, nor in column `x`, nor in the
3×3 box containing `(x, y)`, in ascending order (empty for a filled cell). -/
def candidatesSpec (b : Board) (x y : Nat) : List Nat :=
  if getCell b x y ≠ 0 then []
  else (List.range' 1 9).filter (fun v =>
    decide (¬ (appearsInRow b y v ∨ appearsInCol b x v ∨ appearsInBox b x y v)))

/-- All 81 cells in row-major order. -/
def rowMajorCells : List (Nat × Nat) :=
  (List.range 9).flatMap (fun i => (List.range 9).map (fun j => (j, i)))

/-- The scan region Rule 1 actually has: every row `i ≥ y`, columns `j > x`
in each of those rows. -/
def rule1AmendedCells (x y : Nat) : List (Nat × Nat) :=
  rowMajorCells.filter (fun p => decide (y ≤ p.2) && decide (x < p.1))

/-- The scan region the specification asserts for Rule 1: columns `j > x` on
row `y` itself, but all nine columns on every row `i > y`. -/
def rule1ClaimCells (x y : Nat) : List (Nat × Nat) :=
  rowMajorCells.filter (fun p => (p.2 == y && decide (x < p.1)) || decide (y < p.2))

/-- A forward naked-singles scan in the specification's wording: visit the
given cells in order and, whenever the scanned cell's candidate set has
exactly one member at that moment, assign it and continue the same pass. -/
def scanSpec : List (Nat × Nat) → Board → Board × List (Nat × Nat)
  | [], b => (b, [])
  | p :: rest, b =>
    let s := (candidates b p.1 p.2).toFinset
    if s.card = 1 then
      let next := scanSpec rest (setCell b p.1 p.2 ((s.sort (· ≤ ·)).headD 0))
      (next.1, p :: next.2)
    else scanSpec rest b

/-- Union of the candidate sets of all cells other than the `j`-th one. -/
def unionOthers (sets : List (Finset Nat)) (j : Nat) : Finset Nat :=
  ((List.range sets.length).filter (fun k => k ≠ j)).foldl
    (fun acc k => acc ∪ sets.getD k ∅) ∅

/-- The candidate sets of a group's cells, as finite sets. -/
def setsOf (b : Board) (cells : List (Nat × Nat)) : List (Finset Nat) :=
  cells.map (fun p => (candidates b p.1 p.2).toFinset)

/-- The specification's hidden-single difference for the `j`-th cell of a
group: its candidate set minus the union of all other cells' candidate sets. -/
def specDiff (b : Board) (cells : List (Nat × Nat)) (j : Nat) : Finset Nat :=
  (setsOf b cells).getD j ∅ \ unionOthers (setsOf b cells) j

/-- One group of the hidden-singles pass in the specification's wording:
compute the candidate set of every cell of the group, diff each cell's set
against the union of all the other cells' sets, and exactly when that
difference has exactly one member assign it to the cell. -/
def hiddenSinglesSpec (b : Board) (cells : List (Nat × Nat)) : Board × List (Nat × Nat) :=
  (List.range cells.length).foldl
    (fun acc j =>
      if (specDiff b cells j).card = 1 then
        (setCell acc.1 (cells.getD j (0, 0)).1 (cells.getD j (0, 0)).2
          (((specDiff b cells j).sort (· ≤ ·)).headD 0), acc.2 ++ [cells.getD j (0, 0)])
      else acc)
    (b, [])

/-- Rule 2 in the specification's wording: hidden singles per row `i ≥ y`. -/
def rule2Spec (b : Board) (x y : Nat) : Board × List (Nat × Nat) :=
  (List.range' y (9 - y)).foldl
    (fun acc i =>
      ((hiddenSinglesSpec acc.1 (rowCells i)).1,
        acc.2 ++ (hiddenSinglesSpec acc.1 (rowCells i)).2))
    (b, [])

end Sudoku

/-! ### Concrete boards used by the scenario claims and the counterexamples -/

/-- Scenario B's starting grid. -/
def gB : Board :=
  [[1, 0, 0, 0, 6, 0, 0, 0, 0],
   [9, 8, 0, 0, 0, 0, 6, 0, 5],
   [0, 0, 0, 0, 0, 5, 0, 0, 1],
   [0, 0, 0, 0, 0, 0, 3, 0, 4],
   [0, 6, 0, 0, 0, 0, 9, 0, 0],
   [0, 4, 0, 7, 2, 0, 0, 0, 0],
   [0, 9, 3, 0, 7, 6, 1, 0, 0],
   [0, 0, 6, 4, 8, 0, 0, 0, 7],
   [5, 0, 0, 9, 0, 2, 4, 6, 0]]

/-- Scenario D's fully solved reference grid. -/
def solvedD : Board :=
  [[5, 3, 4, 6, 7, 8, 9, 1, 2],
   [6, 7, 2, 1, 9, 5, 3, 4, 8],
   [1, 9, 8, 3, 4, 2, 5, 6, 7],
   [8, 5, 9, 7, 6, 1, 4, 2, 3],
   [4, 2, 6, 8, 5, 3, 7, 9, 1],
   [7, 1, 3, 9, 2, 4, 8, 5, 6],
   [9, 6, 1, 5, 3, 7, 2, 8, 4],
   [2, 8, 7, 4, 1, 9, 6, 3, 5],
   [3, 4, 5, 2, 8, 6, 1, 7, 9]]

/-- `solvedD` with the cells (1,0), (2,0) and (1,8) blanked: cell (1,0) has
candidates {3,4} until the naked singles at (2,0) and (1,8) are filled, after
which it is itself a naked single — but only for a second pass. -/
def gTwoPass : Board :=
  [[5, 0, 0, 6, 7, 8, 9, 1, 2],
   [6, 7, 2, 1, 9, 5, 3, 4, 8],
   [1, 9, 8, 3, 4, 2, 5, 6, 7],
   [8, 5, 9, 7, 6, 1, 4, 2, 3],
   [4, 2, 6, 8, 5, 3, 7, 9, 1],
   [7, 1, 3, 9, 2, 4, 8, 5, 6],
   [9, 6, 1, 5, 3, 7, 2, 8, 4],
   [2, 8, 7, 4, 1, 9, 6, 3, 5],
   [3, 0, 5, 2, 8, 6, 1, 7, 9]]

/-- `solvedD` with cell (0,1) blanked: a naked single at column 0 of row 1,
out of reach of Rule 1's actual scan region for pivot (5,0). -/
def gLeftSingle : Board :=
  [[5, 3, 4, 6, 7, 8, 9, 1, 2],
   [0, 7, 2, 1, 9, 5, 3, 4, 8],
   [1, 9, 8, 3, 4, 2, 5, 6, 7],
   [8, 5, 9, 7, 6, 1, 4, 2, 3],
   [4, 2, 6, 8, 5, 3, 7, 9, 1],
   [7, 1, 3, 9, 2, 4, 8, 5, 6],
   [9, 6, 1, 5, 3, 7, 2, 8, 4],
   [2, 8, 7, 4, 1, 9, 6, 3, 5],
   [3, 4, 5, 2, 8, 6, 1, 7, 9]]

/-- A valid board holding a single 5: one legal `set` call can duplicate it. -/
def gOneFive : Board :=
  [[5, 0, 0, 0, 0, 0, 0, 0, 0],
   [0, 0, 0, 0, 0, 0, 0, 0, 0],
   [0, 0, 0, 0, 0, 0, 0, 0, 0],
   [0, 0, 0, 0, 0, 0, 0, 0, 0],
   [0, 0, 0, 0, 0, 0, 0, 0, 0],
   [0, 0, 0, 0, 0, 0, 0, 0, 0],
   [0, 0, 0, 0, 0, 0, 0, 0, 0],
   [0, 0, 0, 0, 0, 0, 0, 0, 0],
   [0, 0, 0, 0, 0, 0, 0, 0, 0]]

/-- `solvedD` with cell (0,0) blanked: a one-cell puzzle for witnesses. -/
def gOneHole : Board :=
  [[0, 3, 4, 6, 7, 8, 9, 1, 2],
   [6, 7, 2, 1, 9, 5, 3, 4, 8],
   [1, 9, 8, 3, 4, 2, 5, 6, 7],
   [8, 5, 9, 7, 6, 1, 4, 2, 3],
   [4, 2, 6, 8, 5, 3, 7, 9, 1],
   [7, 1, 3, 9, 2, 4, 8, 5, 6],
   [9, 6, 1, 5, 3, 7, 2, 8, 4],
   [2, 8, 7, 4, 1, 9, 6, 3, 5],
   [3, 4, 5, 2, 8, 6, 1, 7, 9]]

/-- One solution of Scenario B's grid. -/
def sB1 : Board :=
  [[1, 5, 4, 3, 6, 7, 2, 8, 9],
   [9, 8, 7, 2, 4, 1, 6, 3, 5],
   [6, 3, 2, 8, 9, 5, 7, 4, 1],
   [7, 2, 9, 6, 5, 8, 3, 1, 4],
   [8, 6, 5, 1, 3, 4, 9, 7, 2],
   [3, 4, 1, 7, 2, 9, 8, 5, 6],
   [4, 9, 3, 5, 7, 6, 1, 2, 8],
   [2, 1, 6, 4, 8, 3, 5, 9, 7],
   [5, 7, 8, 9, 1, 2, 4, 6, 3]]

/-- A second, different solution of Scenario B's grid. -/
def sB2 : Board :=
  [[1, 5, 7, 3, 6, 8, 2, 4, 9],
   [9, 8, 2, 1, 4, 7, 6, 3, 5],
   [6, 3, 4, 2, 9, 5, 7, 8, 1],
   [8, 2, 1, 6, 5, 9, 3, 7, 4],
   [7, 6, 5, 8, 3, 4, 9, 1, 2],
   [3, 4, 9, 7, 2, 1, 8, 5, 6],
   [4, 9, 3, 5, 7, 6, 1, 2, 8],
   [2, 1, 6, 4, 8, 3, 5, 9, 7],
   [5, 7, 8, 9, 1, 2, 4, 6, 3]]

/-! ### Cell-level lemmas -/

namespace Sudoku

theorem getCell_cons_zero (r : List Nat) (t : Board) (u : Nat) :
    getCell (r :: t) u 0 = r.getD u 0 := rfl

theorem getCell_cons_succ (r : List Nat) (t : Board) (u v : Nat) :
    getCell (r :: t) u (v + 1) = getCell t u v := rfl

theorem getD_set_self {α : Type} (l : List α) (n : Nat) (a d : α) (h : n < l.length) :
    (l.set n a).getD n d = a := by
  rw [List.getD_eq_getElem?_getD, List.getElem?_set_eq_of_lt _ h, Option.getD_some]

theorem getD_set_ne {α : Type} (l : List α) {m n : Nat} (a d : α) (h : n ≠ m) :
    (l.set n a).getD m d = l.getD m d := by
  rw [List.getD_eq_getElem?_getD, List.getElem?_set_ne h, ← List.getD_eq_getElem?_getD]

theorem getCell_setCell_ne (b : Board) {x y u v : Nat} (w : Nat) (h : (u, v) ≠ (x, y)) :
    getCell (setCell b x y w) u v = getCell b u v := by
  unfold getCell setCell
  rcases eq_or_ne v y with rfl | hvy
  · have hux : u ≠ x := fun h' => h (by rw [h'])
    rcases Nat.lt_or_ge v b.length with hlt | hge
    · rw [getD_set_self _ _ _ _ hlt, getD_set_ne _ _ _ (Ne.symm hux)]
    · rw [List.set_eq_of_length_le hge]
  · rw [getD_set_ne _ _ _ (Ne.symm hvy)]

theorem getCell_setCell_self (b : Board) {x y : Nat} (w : Nat)
    (hx : x < (b.getD y []).length) (hy : y < b.length) :
    getCell (setCell b x y w) x y = w := by
  unfold getCell setCell
  rw [getD_set_self _ _ _ _ hy, getD_set_self _ _ _ _ hx]

theorem getCell_setCell_or (b : Board) (x y u v w : Nat) :
    getCell (setCell b x y w) u v = getCell b u v ∨ getCell (setCell b x y w) u v = w := by
  by_cases h : (u, v) = (x, y)
  · have hu : u = x := congrArg Prod.fst h
    have hv : v = y := congrArg Prod.snd h
    subst hu; subst hv
    by_cases hy : v < b.length
    · by_cases hx : u < (b.getD v []).length
      · exact Or.inr (getCell_setCell_self b w hx hy)
      · left
        unfold getCell setCell
        rw [getD_set_self _ _ _ _ hy, List.set_eq_of_length_le (Nat.le_of_not_lt hx)]
    · left; unfold setCell
      rw [List.set_eq_of_length_le (Nat.le_of_not_lt hy)]
  · exact Or.inl (getCell_setCell_ne b w h)

theorem getCell_oob (b : Board) (hwf : Wf b) {u v : Nat} (h : 9 ≤ u ∨ 9 ≤ v) :
    getCell b u v = 0 := by
  obtain ⟨hlen, hrows⟩ := hwf
  rcases h with hu | hv
  · unfold getCell
    rcases Nat.lt_or_ge v b.length with hvlt | hvge
    · have hm : b.getD v [] ∈ b := by
        rw [List.getD_eq_getElem?_getD, List.getElem?_eq_getElem hvlt]
        exact List.getElem_mem _
      have := (hrows _ hm).1
      exact List.getD_eq_default _ _ (by omega)
    · rw [List.getD_eq_getElem?_getD (l := b), List.getElem?_eq_none hvge]; rfl
  · unfold getCell
    rw [List.getD_eq_getElem?_getD (l := b), List.getElem?_eq_none (by omega)]; rfl

theorem sameShape_refl (b : Board) : sameShape b b := ⟨rfl, fun _ => rfl⟩

theorem sameShape_trans {a b c : Board} (h1 : sameShape a b) (h2 : sameShape b c) :
    sameShape a c :=
  ⟨h1.1.trans h2.1, fun i => (h1.2 i).trans (h2.2 i)⟩

theorem sameShape_setCell (b : Board) (x y w : Nat) : sameShape b (setCell b x y w) := by
  unfold setCell
  constructor
  · rw [List.length_set]
  · intro i
    rcases eq_or_ne i y with rfl | hne
    · rcases Nat.lt_or_ge i b.length with hlt | hge
      · rw [List.getD_eq_getElem?_getD (l := b.set _ _), List.getElem?_set_eq_of_lt _ hlt,
          Option.getD_some, List.length_set]
      · rw [List.set_eq_of_length_le hge]
    · rw [List.getD_eq_getElem?_getD (l := b.set _ _), List.getElem?_set_ne (Ne.symm hne),
        ← List.getD_eq_getElem?_getD]

theorem board_ext {b c : Board} (hsh : sameShape b c)
    (hcell : ∀ u v, getCell b u v = getCell c u v) : b = c := by
  apply List.ext_getElem hsh.1
  intro i h1 h2
  apply List.ext_getElem
  · have := hsh.2 i
    rwa [List.getD_eq_getElem?_getD, List.getElem?_eq_getElem h1, Option.getD_some,
      List.getD_eq_getElem?_getD, List.getElem?_eq_getElem h2, Option.getD_some] at this
  · intro j hj1 hj2
    have := hcell j i
    unfold getCell at this
    rwa [List.getD_eq_getElem?_getD (l := b), List.getElem?_eq_getElem h1, Option.getD_some,
      List.getD_eq_getElem?_getD (l := c), List.getElem?_eq_getElem h2, Option.getD_some,
      List.getD_eq_getElem?_getD, List.getElem?_eq_getElem hj1, Option.getD_some,
      List.getD_eq_getElem?_getD, List.getElem?_eq_getElem hj2, Option.getD_some] at this

theorem Wf_setCell {b : Board} (hwf : Wf b) {x y w : Nat} (hw : w ≤ 9) :
    Wf (setCell b x y w) := by
  obtain ⟨hlen, hrows⟩ := hwf
  rcases Nat.lt_or_ge y b.length with hy | hy
  · refine ⟨by rw [setCell, List.length_set]; exact hlen, ?_⟩
    intro row hrow
    rcases List.mem_or_eq_of_mem_set hrow with hmem | rfl
    · exact hrows _ hmem
    · have hdmem : b.getD y [] ∈ b := by
        rw [List.getD_eq_getElem?_getD, List.getElem?_eq_getElem hy]
        exact List.getElem_mem _
      obtain ⟨hr9, hrv⟩ := hrows _ hdmem
      refine ⟨by rw [List.length_set]; exact hr9, ?_⟩
      intro v hv
      rcases List.mem_or_eq_of_mem_set hv with hvm | rfl
      · exact hrv _ hvm
      · exact hw
  · rw [setCell, List.set_eq_of_length_le hy]
    exact ⟨hlen, hrows⟩

/-! ### Counting empty cells -/

theorem count_zero_le_row {l' : List Nat} : ∀ {l : List Nat}, l'.length = l.length →
    (∀ j, l'.getD j 1 = 0 → l.getD j 1 = 0) → l'.count 0 ≤ l.count 0 := by
  induction l' with
  | nil => intro l _ _; exact Nat.zero_le _
  | cons a t ih =>
    intro l hlen hz
    cases l with
    | nil => simp at hlen
    | cons b s =>
      have htail : t.count 0 ≤ s.count 0 := by
        refine ih (by simpa using hlen) ?_
        intro j hj
        exact hz (j + 1) hj
      rw [List.count_cons, List.count_cons]
      have hab : a = 0 → b = 0 := fun h => by simpa using hz 0 (by simpa using h)
      simp only [beq_iff_eq]
      split_ifs with h1 h2 h2
      · omega
      · exact absurd (hab h1) h2
      · omega
      · omega

theorem count_zero_lt_row {l' : List Nat} : ∀ {l : List Nat} {k : Nat}, l'.length = l.length →
    (∀ j, l'.getD j 1 = 0 → l.getD j 1 = 0) → k < l.length →
    l.getD k 1 = 0 → l'.getD k 1 ≠ 0 → l'.count 0 < l.count 0 := by
  induction l' with
  | nil =>
    intro l k hlen _ hk _ _
    rw [← hlen] at hk
    simp at hk
  | cons a t ih =>
    intro l k hlen hz hk h1 h2
    cases l with
    | nil => simp at hlen
    | cons b s =>
      rw [List.count_cons, List.count_cons]
      have hab : a = 0 → b = 0 := fun h => by simpa using hz 0 (by simpa using h)
      cases k with
      | zero =>
        have ha : a ≠ 0 := by simpa using h2
        have hb : b = 0 := by simpa using h1
        have htail : t.count 0 ≤ s.count 0 := by
          refine count_zero_le_row (by simpa using hlen) ?_
          intro j hj
          exact hz (j + 1) hj
        simp only [beq_iff_eq]
        rw [if_neg ha, if_pos hb]
        omega
      | succ k =>
        have htail : t.count 0 < s.count 0 := by
          refine ih (by simpa using hlen) (fun j hj => hz (j + 1) hj)
            (by simpa using hk) (by simpa using h1) (by simpa using h2)
        simp only [beq_iff_eq]
        split_ifs with hi1 hi2 hi2
        · omega
        · exact absurd (hab hi1) hi2
        · omega
        · omega

theorem countZeros_cons (r : List Nat) (t : Board) :
    countZeros (r :: t) = r.count 0 + countZeros t := by
  unfold countZeros
  rw [List.flatten_cons, List.count_append]

theorem countZeros_le_of_pointwise : ∀ {b b' : Board}, sameShape b b' →
    (∀ u v, getCell b' u v = 0 → getCell b u v = 0) → countZeros b' ≤ countZeros b := by
  intro b
  induction b with
  | nil =>
    intro b' hsh _
    have : b' = [] := List.length_eq_zero.mp (hsh.1.symm)
    subst this; exact le_refl _
  | cons r t ih =>
    intro b' hsh hz
    cases b' with
    | nil => simp [sameShape] at hsh
    | cons r' t' =>
      rw [countZeros_cons, countZeros_cons]
      have hrow : r'.count 0 ≤ r.count 0 := by
        refine count_zero_le_row ?_ ?_
        · have := hsh.2 0
          simpa using this.symm
        · intro j hj
          by_cases hjlen : j < r'.length
          · have hj0 : r'.getD j 0 = 0 := by
              rw [List.getD_eq_getElem _ _ hjlen] at hj ⊢
              exact hj
            have := hz j 0 (by simpa [getCell_cons_zero] using hj0)
            rw [getCell_cons_zero] at this
            have hjr : j < r.length := by
              have h00 : r.length = r'.length := by simpa using hsh.2 0
              rw [h00]; exact hjlen
            rw [List.getD_eq_getElem _ _ hjr] at this ⊢
            exact this
          · rw [List.getD_eq_default _ _ (Nat.le_of_not_lt hjlen)] at hj
            exact absurd hj one_ne_zero
      have htail : countZeros t' ≤ countZeros t := by
        refine ih ⟨by simpa using hsh.1, fun i => by simpa using hsh.2 (i + 1)⟩ ?_
        intro u v huv
        have := hz u (v + 1) (by simpa [getCell_cons_succ] using huv)
        simpa [getCell_cons_succ] using this
      exact Nat.add_le_add hrow htail

theorem countZeros_lt_of_pointwise : ∀ {b b' : Board}, sameShape b b' →
    (∀ u v, getCell b' u v = 0 → getCell b u v = 0) →
    ∀ {u v : Nat}, u < (b.getD v []).length → v < b.length →
    getCell b u v = 0 → getCell b' u v ≠ 0 → countZeros b' < countZeros b := by
  intro b
  induction b with
  | nil =>
    intro b' _ _ u v _ hv _ _
    simp at hv
  | cons r t ih =>
    intro b' hsh hz u v hu hv h1 h2
    cases b' with
    | nil => simp [sameShape] at hsh
    | cons r' t' =>
      rw [countZeros_cons, countZeros_cons]
      have hlen0 : r'.length = r.length := by
        have := hsh.2 0
        simpa using this.symm
      have hzrow : ∀ j, r'.getD j 1 = 0 → r.getD j 1 = 0 := by
        intro j hj
        by_cases hjlen : j < r'.length
        · have hj0 : r'.getD j 0 = 0 := by
            rw [List.getD_eq_getElem _ _ hjlen] at hj ⊢
            exact hj
          have := hz j 0 (by simpa [getCell_cons_zero] using hj0)
          rw [getCell_cons_zero] at this
          have hjr : j < r.length := by rw [← hlen0]; exact hjlen
          rw [List.getD_eq_getElem _ _ hjr] at this ⊢
          exact this
        · rw [List.getD_eq_default _ _ (Nat.le_of_not_lt hjlen)] at hj
          exact absurd hj one_ne_zero
      have hztail : ∀ u v, getCell t' u v = 0 → getCell t u v = 0 := by
        intro a c hac
        have := hz a (c + 1) (by simpa [getCell_cons_succ] using hac)
        simpa [getCell_cons_succ] using this
      have hshtail : sameShape t t' :=
        ⟨by simpa using hsh.1, fun i => by simpa using hsh.2 (i + 1)⟩
      cases v with
      | zero =>
        have hur : u < r.length := by simpa using hu
        have hrow : r'.count 0 < r.count 0 := by
          refine count_zero_lt_row hlen0 hzrow hur ?_ ?_
          · rw [List.getD_eq_getElem _ _ hur]
            rw [getCell_cons_zero, List.getD_eq_getElem _ _ hur] at h1
            exact h1
          · have hur' : u < r'.length := by rw [hlen0]; exact hur
            rw [List.getD_eq_getElem _ _ hur']
            rw [getCell_cons_zero, List.getD_eq_getElem _ _ hur'] at h2
            exact h2
        have htail : countZeros t' ≤ countZeros t :=
          countZeros_le_of_pointwise hshtail hztail
        omega
      | succ v =>
        have hrow : r'.count 0 ≤ r.count 0 := count_zero_le_row hlen0 hzrow
        have htail : countZeros t' < countZeros t := by
          refine ih hshtail hztail (by simpa using hu) (by simpa using hv) ?_ ?_
          · rw [getCell_cons_succ] at h1; exact h1
          · rw [getCell_cons_succ] at h2; exact h2
        omega

/-! ### Candidate list basics -/

theorem candidates_mem_bounds {b : Board} {x y v : Nat} (h : v ∈ candidates b x y) :
    1 ≤ v ∧ v ≤ 9 := by
  unfold candidates at h
  split at h
  · cases h
  · have h1 := (List.mem_filter.mp h).1
    have h2 := (List.mem_filter.mp h1).1
    have h3 := (List.mem_filter.mp h2).1
    obtain ⟨w, hw, rfl⟩ := List.mem_map.mp h3
    have := List.mem_range.mp hw
    omega

theorem candidates_mem_ne_zero {b : Board} {x y v : Nat} (h : v ∈ candidates b x y) :
    v ≠ 0 := by
  have := candidates_mem_bounds h
  omega

theorem candidates_cell_zero {b : Board} {x y : Nat} (h : candidates b x y ≠ []) :
    getCell b x y = 0 := by
  unfold candidates at h
  by_contra hne
  rw [if_pos (by simpa using hne)] at h
  exact h rfl

theorem headD_mem_of_length_one {l : List Nat} (h : l.length = 1) : l.headD 0 ∈ l := by
  obtain ⟨a, rfl⟩ := List.length_eq_one.mp h
  simp

/-! ### The undo-log invariant of the propagation writes -/

theorem getD_mem {α : Type} {l : List α} {j : Nat} (d : α) (h : j < l.length) :
    l.getD j d ∈ l := by
  rw [List.getD_eq_getElem _ _ h]
  exact List.getElem_mem _

theorem getD_map {α β : Type} {l : List α} {j : Nat} (f : α → β) (d0 : β) (d1 : α)
    (h : j < l.length) : (l.map f).getD j d0 = f (l.getD j d1) := by
  rw [List.getD_eq_getElem _ _ (by simpa using h), List.getD_eq_getElem _ _ h,
    List.getElem_map]

theorem difference_subset : ∀ (arrays : List (List Nat)) (a : List Nat),
    difference a arrays ⊆ a := by
  intro arrays
  induction arrays with
  | nil => intro a v hv; exact hv
  | cons bs rest ih =>
    intro a v hv
    have : difference a (bs :: rest) = difference (a.filter (fun x => !(bs.contains x))) rest :=
      rfl
    rw [this] at hv
    exact List.mem_of_mem_filter (ih _ hv)

/-- What the propagation writes of one trial do to the working board, relative
to the board `b` the trial started from and the undo log produced: shape is
kept, cells outside the log are untouched, logged cells were empty in `b`, no
write ever clears a cell, well-formedness is preserved, and logged coordinates
are in bounds. -/
structure TrialInv (b b' : Board) (log : List (Nat × Nat)) : Prop where
  shape : sameShape b b'
  frame : ∀ p : Nat × Nat, p ∉ log → getCell b' p.1 p.2 = getCell b p.1 p.2
  wasZero : ∀ p ∈ log, getCell b p.1 p.2 = 0
  zback : ∀ u v : Nat, getCell b' u v = 0 → getCell b u v = 0
  wf : Wf b → Wf b'

theorem TrialInv.refl (b : Board) : TrialInv b b [] where
  shape := sameShape_refl b
  frame := fun _ _ => rfl
  wasZero := fun _ h => absurd h (List.not_mem_nil _)
  zback := fun _ _ h => h
  wf := id

theorem TrialInv.trans {b b1 b2 : Board} {l1 l2 : List (Nat × Nat)}
    (h1 : TrialInv b b1 l1) (h2 : TrialInv b1 b2 l2) : TrialInv b b2 (l1 ++ l2) where
  shape := sameShape_trans h1.shape h2.shape
  frame := fun p hp => by
    have hp1 : p ∉ l1 := fun h => hp (List.mem_append.mpr (Or.inl h))
    have hp2 : p ∉ l2 := fun h => hp (List.mem_append.mpr (Or.inr h))
    rw [h2.frame p hp2, h1.frame p hp1]
  wasZero := fun p hp => by
    rcases List.mem_append.mp hp with hm | hm
    · exact h1.wasZero p hm
    · exact h1.zback _ _ (h2.wasZero p hm)
  zback := fun u v h => h1.zback u v (h2.zback u v h)
  wf := fun h => h2.wf (h1.wf h)

theorem TrialInv.write {b cur : Board} {log : List (Nat × Nat)}
    (h : TrialInv b cur log) {p : Nat × Nat} {w : Nat}
    (hp0 : getCell b p.1 p.2 = 0) (hw1 : w ≠ 0) (hw9 : w ≤ 9) :
    TrialInv b (setCell cur p.1 p.2 w) (log ++ [p]) where
  shape := sameShape_trans h.shape (sameShape_setCell cur p.1 p.2 w)
  frame := fun q hq => by
    have hq1 : q ∉ log := fun hm => hq (List.mem_append.mpr (Or.inl hm))
    have hqp : q ≠ p := fun hm => hq (List.mem_append.mpr (Or.inr (by rw [hm]; exact List.mem_singleton_self p)))
    rw [getCell_setCell_ne cur w (by simpa using hqp), h.frame q hq1]
  wasZero := fun q hq => by
    rcases List.mem_append.mp hq with hm | hm
    · exact h.wasZero q hm
    · rw [List.mem_singleton.mp hm]; exact hp0
  zback := fun u v hz => by
    rcases getCell_setCell_or cur p.1 p.2 u v w with heq | heq
    · exact h.zback u v (heq ▸ hz)
    · rw [heq] at hz; exact absurd hz hw1
  wf := fun hwf => Wf_setCell (h.wf hwf) hw9

/-- Rows of a well-formed board have length 9. -/
theorem Wf_row_len {b : Board} (hwf : Wf b) {y : Nat} (hy : y < 9) :
    (b.getD y []).length = 9 := by
  obtain ⟨hlen, hrows⟩ := hwf
  have : b.getD y [] ∈ b := getD_mem [] (by omega)
  exact (hrows _ this).1

theorem getCell_setCell_self_wf {cur : Board} (hwf : Wf cur) {p : Nat × Nat} {w : Nat}
    (hp : p.1 < 9 ∧ p.2 < 9) : getCell (setCell cur p.1 p.2 w) p.1 p.2 = w := by
  refine getCell_setCell_self cur w ?_ ?_
  · rw [Wf_row_len hwf hp.2]; exact hp.1
  · rw [hwf.1]; exact hp.2

theorem scanCells_inv : ∀ (cells : List (Nat × Nat)) (b : Board),
    (∀ p ∈ cells, p.1 < 9 ∧ p.2 < 9) →
    TrialInv b (scanCells cells b).1 (scanCells cells b).2 ∧
    (Wf b → ∀ p ∈ (scanCells cells b).2,
      getCell (scanCells cells b).1 p.1 p.2 ≠ 0) := by
  intro cells
  induction cells with
  | nil =>
    intro b _
    exact ⟨TrialInv.refl b, fun _ p hp => absurd hp (List.not_mem_nil _)⟩
  | cons q rest ih =>
    intro b hb
    obtain ⟨j, i⟩ := q
    by_cases hcs : (candidates b j i).length = 1
    · have heq : scanCells ((j, i) :: rest) b =
          ((scanCells rest (setCell b j i ((candidates b j i).headD 0))).1,
            (j, i) :: (scanCells rest (setCell b j i ((candidates b j i).headD 0))).2) := by
        simp only [scanCells, hcs, if_true]
      rw [heq]
      have hwmem : (candidates b j i).headD 0 ∈ candidates b j i :=
        headD_mem_of_length_one hcs
      have hw0 : (candidates b j i).headD 0 ≠ 0 := candidates_mem_ne_zero hwmem
      have hw9 : (candidates b j i).headD 0 ≤ 9 := (candidates_mem_bounds hwmem).2
      have hcell0 : getCell b j i = 0 :=
        candidates_cell_zero (List.ne_nil_of_mem hwmem)
      have hq : ((j, i) : Nat × Nat).1 < 9 ∧ ((j, i) : Nat × Nat).2 < 9 :=
        hb (j, i) (List.mem_cons_self _ _)
      have hstep : TrialInv b (setCell b j i ((candidates b j i).headD 0)) [(j, i)] := by
        have := (TrialInv.refl b).write (p := (j, i)) hcell0 hw0 hw9
        simpa using this
      obtain ⟨hinv, hfill⟩ := ih (setCell b j i ((candidates b j i).headD 0))
        (fun p hp => hb p (List.mem_cons_of_mem _ hp))
      refine ⟨?_, ?_⟩
      · have := hstep.trans hinv
        simpa using this
      · intro hwf p hp
        have hwf1 : Wf (setCell b j i ((candidates b j i).headD 0)) :=
          Wf_setCell hwf hw9
        rcases List.mem_cons.mp hp with hpji | hm
        · subst hpji
          intro hz
          have hself : getCell (setCell b j i ((candidates b j i).headD 0)) j i
              = (candidates b j i).headD 0 := by
            simpa using getCell_setCell_self_wf (p := (j, i)) hwf hq
          have hzb : getCell (setCell b j i ((candidates b j i).headD 0)) j i = 0 :=
            hinv.zback j i hz
          rw [hself] at hzb
          exact hw0 hzb
        · exact hfill hwf1 p hm
    · have heq : scanCells ((j, i) :: rest) b = scanCells rest b := by
        simp only [scanCells, hcs, if_false]
      rw [heq]
      exact ih b (fun p hp => hb p (List.mem_cons_of_mem _ hp))

theorem diffsOf_length (b : Board) (cells : List (Nat × Nat)) :
    (diffsOf b cells).length = cells.length := by
  unfold diffsOf
  rw [List.length_map, List.length_range]

theorem diffsOf_getD (b : Board) (cells : List (Nat × Nat)) {j : Nat}
    (hj : j < cells.length) :
    (diffsOf b cells).getD j [] =
      difference ((allowedOf b cells).getD j []) ((allowedOf b cells).eraseIdx j) := by
  unfold diffsOf
  rw [List.getD_eq_getElem _ _ (by simpa using hj), List.getElem_map, List.getElem_range]

theorem allowedOf_getD (b : Board) (cells : List (Nat × Nat)) {j : Nat}
    (hj : j < cells.length) :
    (allowedOf b cells).getD j [] =
      candidates b (cells.getD j (0, 0)).1 (cells.getD j (0, 0)).2 := by
  unfold allowedOf
  rw [List.getD_eq_getElem _ _ (by simpa using hj), List.getElem_map,
    List.getD_eq_getElem _ _ hj]

theorem diffsOf_subset_candidates (b : Board) (cells : List (Nat × Nat)) {j : Nat}
    (hj : j < cells.length) {v : Nat} (hv : v ∈ (diffsOf b cells).getD j []) :
    v ∈ candidates b (cells.getD j (0, 0)).1 (cells.getD j (0, 0)).2 := by
  rw [diffsOf_getD b cells hj] at hv
  have hmem := difference_subset ((allowedOf b cells).eraseIdx j)
    ((allowedOf b cells).getD j []) hv
  rwa [allowedOf_getD b cells hj] at hmem

theorem hiddenSingles_inv (b : Board) (cells : List (Nat × Nat))
    (hb : ∀ p ∈ cells, p.1 < 9 ∧ p.2 < 9) :
    TrialInv b (hiddenSingles b cells).1 (hiddenSingles b cells).2 ∧
    (Wf b → ∀ p ∈ (hiddenSingles b cells).2,
      getCell (hiddenSingles b cells).1 p.1 p.2 ≠ 0) := by
  have main : ∀ (js : List Nat) (acc : Board × List (Nat × Nat)),
      TrialInv b acc.1 acc.2 →
      (Wf b → ∀ p ∈ acc.2, getCell acc.1 p.1 p.2 ≠ 0) →
      TrialInv b (js.foldl
          (fun acc j =>
            if ((diffsOf b cells).getD j []).length = 1 then
              (setCell acc.1 (cells.getD j (0, 0)).1 (cells.getD j (0, 0)).2
                (((diffsOf b cells).getD j []).headD 0), acc.2 ++ [cells.getD j (0, 0)])
            else acc) acc).1
        (js.foldl
          (fun acc j =>
            if ((diffsOf b cells).getD j []).length = 1 then
              (setCell acc.1 (cells.getD j (0, 0)).1 (cells.getD j (0, 0)).2
                (((diffsOf b cells).getD j []).headD 0), acc.2 ++ [cells.getD j (0, 0)])
            else acc) acc).2 ∧
      (Wf b → ∀ p ∈ (js.foldl
          (fun acc j =>
            if ((diffsOf b cells).getD j []).length = 1 then
              (setCell acc.1 (cells.getD j (0, 0)).1 (cells.getD j (0, 0)).2
                (((diffsOf b cells).getD j []).headD 0), acc.2 ++ [cells.getD j (0, 0)])
            else acc) acc).2,
        getCell (js.foldl
          (fun acc j =>
            if ((diffsOf b cells).getD j []).length = 1 then
              (setCell acc.1 (cells.getD j (0, 0)).1 (cells.getD j (0, 0)).2
                (((diffsOf b cells).getD j []).headD 0), acc.2 ++ [cells.getD j (0, 0)])
            else acc) acc).1 p.1 p.2 ≠ 0) := by
    intro js
    induction js with
    | nil => intro acc hinv hfill; exact ⟨hinv, hfill⟩
    | cons j js ihj =>
      intro acc hinv hfill
      rw [List.foldl_cons]
      by_cases hd : ((diffsOf b cells).getD j []).length = 1
      · rw [if_pos hd]
        have hjlen : j < cells.length := by
          by_contra hge
          rw [List.getD_eq_default _ _ (by rw [diffsOf_length]; omega)] at hd
          simp at hd
        have hwmem : ((diffsOf b cells).getD j []).headD 0 ∈ (diffsOf b cells).getD j [] :=
          headD_mem_of_length_one hd
        have hcand := diffsOf_subset_candidates b cells hjlen hwmem
        have hw0 := candidates_mem_ne_zero hcand
        have hw9 := (candidates_mem_bounds hcand).2
        have hcell0 : getCell b (cells.getD j (0, 0)).1 (cells.getD j (0, 0)).2 = 0 :=
          candidates_cell_zero (List.ne_nil_of_mem hcand)
        have hpb := hb _ (getD_mem (0, 0) hjlen)
        refine ihj _ (hinv.write hcell0 hw0 hw9) ?_
        intro hwf p hp
        rcases List.mem_append.mp hp with hm | hm
        · rcases getCell_setCell_or acc.1 (cells.getD j (0, 0)).1 (cells.getD j (0, 0)).2
            p.1 p.2 (((diffsOf b cells).getD j []).headD 0) with heq | heq
          · rw [heq]; exact hfill hwf p hm
          · rw [heq]; exact hw0
        · rw [List.mem_singleton.mp hm]
          rw [getCell_setCell_self_wf (hinv.wf hwf) hpb]
          exact hw0
      · rw [if_neg hd]
        exact ihj _ hinv hfill
  have := main (List.range cells.length) (b, []) (TrialInv.refl b)
    (fun _ p hp => absurd hp (List.not_mem_nil _))
  exact this

/-! ### Rule-level invariants -/

theorem rule1Cells_bounds (x y : Nat) : ∀ p ∈ rule1Cells x y, p.1 < 9 ∧ p.2 < 9 := by
  intro p hp
  unfold rule1Cells at hp
  rw [List.mem_flatMap] at hp
  obtain ⟨i, hi, hp⟩ := hp
  rw [List.mem_map] at hp
  obtain ⟨j, hj, rfl⟩ := hp
  have h1 := List.mem_range'_1.mp hi
  have h2 := List.mem_range'_1.mp hj
  exact ⟨by omega, by omega⟩

theorem rule1_inv (b : Board) (x y : Nat) :
    TrialInv b (rule1 b x y).1 (rule1 b x y).2 ∧
    (Wf b → ∀ p ∈ (rule1 b x y).2, getCell (rule1 b x y).1 p.1 p.2 ≠ 0) :=
  scanCells_inv (rule1Cells x y) b (rule1Cells_bounds x y)

theorem rowCells_bounds {i : Nat} (hi : i < 9) : ∀ p ∈ rowCells i, p.1 < 9 ∧ p.2 < 9 := by
  intro p hp
  unfold rowCells at hp
  rw [List.mem_map] at hp
  obtain ⟨j, hj, rfl⟩ := hp
  exact ⟨List.mem_range.mp hj, hi⟩

theorem colCells_bounds {j : Nat} (hj : j < 9) : ∀ p ∈ colCells j, p.1 < 9 ∧ p.2 < 9 := by
  intro p hp
  unfold colCells at hp
  rw [List.mem_map] at hp
  obtain ⟨i, hi, rfl⟩ := hp
  exact ⟨hj, List.mem_range.mp hi⟩

theorem boxCells_bounds {k : Nat} (hk : k < 9) : ∀ p ∈ boxCells k, p.1 < 9 ∧ p.2 < 9 := by
  intro p hp
  unfold boxCells at hp
  rw [List.mem_map] at hp
  obtain ⟨idx, hidx, rfl⟩ := hp
  rw [List.mem_map] at hidx
  obtain ⟨v, hv, rfl⟩ := hidx
  simp only [List.mem_cons, List.not_mem_nil, or_false] at hv
  constructor
  · exact Nat.mod_lt _ (by norm_num)
  · rcases hv with rfl | rfl | rfl | rfl | rfl | rfl | rfl | rfl | rfl <;> omega

theorem groupFold_inv (cellsOf : Nat → List (Nat × Nat)) :
    ∀ (ks : List Nat), (∀ k ∈ ks, ∀ p ∈ cellsOf k, p.1 < 9 ∧ p.2 < 9) →
    ∀ {b : Board} (acc : Board × List (Nat × Nat)),
    TrialInv b acc.1 acc.2 →
    (Wf b → ∀ p ∈ acc.2, getCell acc.1 p.1 p.2 ≠ 0) →
    TrialInv b
      (ks.foldl (fun acc k =>
        ((hiddenSingles acc.1 (cellsOf k)).1, acc.2 ++ (hiddenSingles acc.1 (cellsOf k)).2)) acc).1
      (ks.foldl (fun acc k =>
        ((hiddenSingles acc.1 (cellsOf k)).1, acc.2 ++ (hiddenSingles acc.1 (cellsOf k)).2)) acc).2 ∧
    (Wf b → ∀ p ∈ (ks.foldl (fun acc k =>
        ((hiddenSingles acc.1 (cellsOf k)).1, acc.2 ++ (hiddenSingles acc.1 (cellsOf k)).2)) acc).2,
      getCell (ks.foldl (fun acc k =>
        ((hiddenSingles acc.1 (cellsOf k)).1, acc.2 ++ (hiddenSingles acc.1 (cellsOf k)).2)) acc).1
        p.1 p.2 ≠ 0) := by
  intro ks
  induction ks with
  | nil => intro _ b acc h1 h2; exact ⟨h1, h2⟩
  | cons k ks ih =>
    intro hk b acc hinv hfill
    rw [List.foldl_cons]
    obtain ⟨hsinv, hsfill⟩ := hiddenSingles_inv acc.1 (cellsOf k) (hk k (List.mem_cons_self _ _))
    refine ih (fun k' hk' => hk k' (List.mem_cons_of_mem _ hk')) _ (hinv.trans hsinv) ?_
    intro hwf p hp
    rcases List.mem_append.mp hp with hm | hm
    · intro hz
      exact hfill hwf p hm (hsinv.zback p.1 p.2 hz)
    · exact hsfill (hinv.wf hwf) p hm

theorem rule2_inv (b : Board) (x y : Nat) :
    TrialInv b (rule2 b x y).1 (rule2 b x y).2 ∧
    (Wf b → ∀ p ∈ (rule2 b x y).2, getCell (rule2 b x y).1 p.1 p.2 ≠ 0) := by
  have h := groupFold_inv rowCells (List.range' y (9 - y))
    (fun k hk => rowCells_bounds (by have := List.mem_range'_1.mp hk; omega))
    (b := b) (b, []) (TrialInv.refl b) (fun _ p hp => absurd hp (List.not_mem_nil _))
  exact h

theorem rule3_inv (b : Board) (x y : Nat) :
    TrialInv b (rule3 b x y).1 (rule3 b x y).2 ∧
    (Wf b → ∀ p ∈ (rule3 b x y).2, getCell (rule3 b x y).1 p.1 p.2 ≠ 0) := by
  have h := groupFold_inv colCells (List.range' x (9 - x))
    (fun k hk => colCells_bounds (by have := List.mem_range'_1.mp hk; omega))
    (b := b) (b, []) (TrialInv.refl b) (fun _ p hp => absurd hp (List.not_mem_nil _))
  exact h

theorem rule4_inv (b : Board) (x y : Nat) :
    TrialInv b (rule4 b x y).1 (rule4 b x y).2 ∧
    (Wf b → ∀ p ∈ (rule4 b x y).2, getCell (rule4 b x y).1 p.1 p.2 ≠ 0) := by
  have h := groupFold_inv boxCells
    (List.range' ((y / 3) * 3 + x / 3) (9 - ((y / 3) * 3 + x / 3)))
    (fun k hk => boxCells_bounds (by have := List.mem_range'_1.mp hk; omega))
    (b := b) (b, []) (TrialInv.refl b) (fun _ p hp => absurd hp (List.not_mem_nil _))
  exact h

theorem TrialInv.consHead {b b' : Board} {log : List (Nat × Nat)}
    (h : TrialInv b b' log) {p : Nat × Nat} (hp0 : getCell b p.1 p.2 = 0) :
    TrialInv b b' (p :: log) where
  shape := h.shape
  frame := fun q hq => h.frame q (fun hm => hq (List.mem_cons_of_mem _ hm))
  wasZero := fun q hq => by
    rcases List.mem_cons.mp hq with hqp | hm
    · rw [hqp]; exact hp0
    · exact h.wasZero q hm
  zback := h.zback
  wf := h.wf

theorem trialRules_inv (b : Board) {x y : Nat} (hpivot : getCell b x y = 0) :
    TrialInv b (trialRules b x y).1 (trialRules b x y).2 := by
  have h1 := (rule1_inv b x y).1
  have h2 := (rule2_inv (rule1 b x y).1 x y).1
  have h3 := (rule3_inv (rule2 (rule1 b x y).1 x y).1 x y).1
  have h4 := (rule4_inv (rule3 (rule2 (rule1 b x y).1 x y).1 x y).1 x y).1
  exact (((h1.trans h2).trans h3).trans h4).consHead (p := (x, y)) hpivot

/-! ### Draining the undo log restores the board -/

theorem getCell_setCell_zero (b : Board) (u v : Nat) :
    getCell (setCell b u v 0) u v = 0 := by
  by_cases hv : v < b.length
  · by_cases hu : u < (b.getD v []).length
    · exact getCell_setCell_self b 0 hu hv
    · unfold getCell setCell
      rw [getD_set_self _ _ _ _ hv, List.set_eq_of_length_le (Nat.le_of_not_lt hu),
        List.getD_eq_default _ _ (Nat.le_of_not_lt hu)]
  · unfold getCell setCell
    rw [List.set_eq_of_length_le (Nat.le_of_not_lt hv),
      List.getD_eq_default _ _ (Nat.le_of_not_lt hv)]
    rfl

theorem drain_frame : ∀ (log : List (Nat × Nat)) (b' : Board) (p : Nat × Nat), p ∉ log →
    getCell (drain b' log) p.1 p.2 = getCell b' p.1 p.2 := by
  intro log
  induction log with
  | nil => intro b' p _; rfl
  | cons q t ih =>
    intro b' p hp
    have hpq : p ≠ q := fun h => hp (h ▸ List.mem_cons_self _ _)
    have hpt : p ∉ t := fun h => hp (List.mem_cons_of_mem _ h)
    show getCell (drain (setCell b' q.1 q.2 0) t) p.1 p.2 = _
    rw [ih _ p hpt, getCell_setCell_ne _ _ hpq]

theorem drain_mem_zero : ∀ (log : List (Nat × Nat)) (b' : Board) (p : Nat × Nat), p ∈ log →
    getCell (drain b' log) p.1 p.2 = 0 := by
  intro log
  induction log with
  | nil => intro b' p hp; exact absurd hp (List.not_mem_nil _)
  | cons q t ih =>
    intro b' p hp
    show getCell (drain (setCell b' q.1 q.2 0) t) p.1 p.2 = 0
    by_cases hpt : p ∈ t
    · exact ih _ p hpt
    · have hpq : p = q := by
        rcases List.mem_cons.mp hp with h | h
        · exact h
        · exact absurd h hpt
      subst hpq
      rw [drain_frame t _ p hpt]
      exact getCell_setCell_zero b' p.1 p.2

theorem drain_shape : ∀ (log : List (Nat × Nat)) (b' : Board),
    sameShape b' (drain b' log) := by
  intro log
  induction log with
  | nil => intro b'; exact sameShape_refl b'
  | cons q t ih =>
    intro b'
    exact sameShape_trans (sameShape_setCell b' q.1 q.2 0) (ih (setCell b' q.1 q.2 0))

theorem drain_restore {b b' : Board} {log : List (Nat × Nat)} (hsh : sameShape b b')
    (hframe : ∀ p : Nat × Nat, p ∉ log → getCell b' p.1 p.2 = getCell b p.1 p.2)
    (hzero : ∀ p ∈ log, getCell b p.1 p.2 = 0) : drain b' log = b := by
  refine (board_ext (sameShape_trans hsh (drain_shape log b')) ?_).symm
  intro u v
  by_cases hm : ((u, v) : Nat × Nat) ∈ log
  · rw [drain_mem_zero log b' (u, v) hm]
    exact hzero (u, v) hm
  · rw [drain_frame log b' (u, v) hm, hframe (u, v) hm]

theorem trial_restore (b : Board) {x y : Nat} (c : Nat) (hpivot : getCell b x y = 0) :
    drain (setCell (trialRules b x y).1 x y c) (trialRules b x y).2 = b := by
  have hinv := trialRules_inv b hpivot
  refine drain_restore ?_ ?_ hinv.wasZero
  · exact sameShape_trans hinv.shape (sameShape_setCell _ x y c)
  · intro p hp
    have hpxy : p ≠ (x, y) := fun h => hp (h ▸ List.mem_cons_self _ _)
    rw [getCell_setCell_ne _ c hpxy]
    exact hinv.frame p hp

/-! ### `nextOpenCell` finds an empty cell -/

theorem findZeroRow_nonneg : ∀ (b : Board) (k : Nat), 0 ≤ findZeroRow k b →
    k ≤ (findZeroRow k b).toNat ∧ (findZeroRow k b).toNat - k < b.length ∧
    ((b.getD ((findZeroRow k b).toNat - k) []).contains 0 = true) := by
  intro b
  induction b with
  | nil =>
    intro k h
    simp only [findZeroRow] at h
    omega
  | cons row rest ih =>
    intro k h
    by_cases hc : row.contains 0
    · have heq : findZeroRow k (row :: rest) = (k : Int) := by
        have hstep : findZeroRow k (row :: rest)
            = if row.contains 0 then ((k : Nat) : Int) else findZeroRow (k + 1) rest := rfl
        rw [hstep]
        first
          | rw [if_pos hc]
          | rw [if_neg hc]
      rw [heq]
      refine ⟨by simp, by simp, ?_⟩
      simpa using hc
    · have heq : findZeroRow k (row :: rest) = findZeroRow (k + 1) rest := by
        have hstep : findZeroRow k (row :: rest)
            = if row.contains 0 then ((k : Nat) : Int) else findZeroRow (k + 1) rest := rfl
        rw [hstep]
        first
          | rw [if_pos hc]
          | rw [if_neg hc]
      rw [heq] at h ⊢
      obtain ⟨h1, h2, h3⟩ := ih (k + 1) h
      refine ⟨by omega, by simp only [List.length_cons]; omega, ?_⟩
      have harith : (findZeroRow (k + 1) rest).toNat - k =
          ((findZeroRow (k + 1) rest).toNat - (k + 1)) + 1 := by omega
      rw [harith]
      simpa using h3

theorem findZeroRow_cases (b : Board) (k : Nat) :
    findZeroRow k b = -1 ∨ 0 ≤ findZeroRow k b := by
  induction b generalizing k with
  | nil => exact Or.inl rfl
  | cons row rest ih =>
    by_cases hc : row.contains 0
    · right
      have heq : findZeroRow k (row :: rest) = (k : Int) := by
        have hstep : findZeroRow k (row :: rest)
            = if row.contains 0 then ((k : Nat) : Int) else findZeroRow (k + 1) rest := rfl
        rw [hstep, if_pos hc]
      rw [heq]
      omega
    · have heq : findZeroRow k (row :: rest) = findZeroRow (k + 1) rest := by
        have hstep : findZeroRow k (row :: rest)
            = if row.contains 0 then ((k : Nat) : Int) else findZeroRow (k + 1) rest := rfl
        rw [hstep]
        first
          | rw [if_pos hc]
          | rw [if_neg hc]
      rw [heq]
      exact ih (k + 1)

theorem findZeroRow_neg : ∀ (b : Board) (k : Nat), findZeroRow k b = -1 →
    ∀ row ∈ b, row.contains 0 = false := by
  intro b
  induction b with
  | nil => intro k _ row hrow; exact absurd hrow (List.not_mem_nil _)
  | cons row rest ih =>
    intro k h r hr
    by_cases hc : row.contains 0
    · exfalso
      have heq : findZeroRow k (row :: rest) = (k : Int) := by
        have hstep : findZeroRow k (row :: rest)
            = if row.contains 0 then ((k : Nat) : Int) else findZeroRow (k + 1) rest := rfl
        rw [hstep, if_pos hc]
      rw [heq] at h
      omega
    · have heq : findZeroRow k (row :: rest) = findZeroRow (k + 1) rest := by
        have hstep : findZeroRow k (row :: rest)
            = if row.contains 0 then ((k : Nat) : Int) else findZeroRow (k + 1) rest := rfl
        rw [hstep]
        first
          | rw [if_pos hc]
          | rw [if_neg hc]
      rw [heq] at h
      rcases List.mem_cons.mp hr with rfl | hm
      · simpa using hc
      · exact ih (k + 1) h r hm

theorem nextOpenCell_found {b : Board}
    (h : ¬((nextOpenCell b).1 = -1 ∨ (nextOpenCell b).2 = -1)) :
    (nextOpenCell b).2.toNat < b.length ∧
    (nextOpenCell b).1.toNat < (b.getD (nextOpenCell b).2.toNat []).length ∧
    getCell b (nextOpenCell b).1.toNat (nextOpenCell b).2.toNat = 0 := by
  have hy : (nextOpenCell b).2 = findZeroRow 0 (rows b) := rfl
  have hge : 0 ≤ findZeroRow 0 (rows b) := by
    rcases findZeroRow_cases (rows b) 0 with hneg | hpos
    · exact absurd (Or.inr (hy.trans hneg)) h
    · exact hpos
  obtain ⟨-, hlen, hcont⟩ := findZeroRow_nonneg (rows b) 0 hge
  have hx : (nextOpenCell b).1 =
      (((rows b).getD (findZeroRow 0 (rows b)).toNat []).indexOf 0 : Nat) := by
    show (if findZeroRow 0 (rows b) ≥ 0 then _ else _) = _
    rw [if_pos hge]
  have hmem : (0 : Nat) ∈ (rows b).getD (findZeroRow 0 (rows b)).toNat [] := by
    have := hcont
    rw [Nat.sub_zero] at this
    simpa [List.contains] using this
  have hidx : ((rows b).getD (findZeroRow 0 (rows b)).toNat []).indexOf 0 <
      ((rows b).getD (findZeroRow 0 (rows b)).toNat []).length :=
    List.indexOf_lt_length.mpr hmem
  refine ⟨?_, ?_, ?_⟩
  · rw [hy]
    simpa using hlen
  · rw [hy, hx]
    simpa using hidx
  · rw [hy, hx]
    unfold getCell
    rw [Int.toNat_ofNat]
    show ((rows b).getD (findZeroRow 0 (rows b)).toNat []).getD
      (((rows b).getD (findZeroRow 0 (rows b)).toNat []).indexOf 0) 0 = 0
    rw [List.getD_eq_getElem _ _ hidx]
    exact List.getElem_indexOf hidx
end Sudoku

/-! ### Backtracking restores its working board -/

namespace Sudoku

theorem backtrack_succ (fuel : Nat) (b : Board) : backtrack (fuel + 1) b =
    if okay b = false then (b, [])
    else if solved b then (b, [b])
    else if (nextOpenCell b).1 = -1 ∨ (nextOpenCell b).2 = -1 then (b, [])
    else
      (candidates b (nextOpenCell b).1.toNat (nextOpenCell b).2.toNat).foldl
        (fun acc c =>
          (drain (backtrack fuel (setCell
              (trialRules acc.1 (nextOpenCell b).1.toNat (nextOpenCell b).2.toNat).1
              (nextOpenCell b).1.toNat (nextOpenCell b).2.toNat c)).1
            (trialRules acc.1 (nextOpenCell b).1.toNat (nextOpenCell b).2.toNat).2,
           acc.2 ++ (backtrack fuel (setCell
              (trialRules acc.1 (nextOpenCell b).1.toNat (nextOpenCell b).2.toNat).1
              (nextOpenCell b).1.toNat (nextOpenCell b).2.toNat c)).2))
        (b, []) := rfl

theorem backtrackSols_succ (fuel : Nat) (b : Board) : backtrackSols (fuel + 1) b =
    if okay b = false then []
    else if solved b then [b]
    else if (nextOpenCell b).1 = -1 ∨ (nextOpenCell b).2 = -1 then []
    else
      (candidates b (nextOpenCell b).1.toNat (nextOpenCell b).2.toNat).foldl
        (fun acc c => acc ++ backtrackSols fuel
          (setCell (trialRules b (nextOpenCell b).1.toNat (nextOpenCell b).2.toNat).1
            (nextOpenCell b).1.toNat (nextOpenCell b).2.toNat c)) [] := rfl

theorem backtrack_foldl_fst (fuel x y : Nat) (b : Board)
    (ih : ∀ b', (backtrack fuel b').1 = b')
    (hpivot : getCell b x y = 0) :
    ∀ (cs : List Nat) (acc : Board × List Board), acc.1 = b →
    (cs.foldl (fun acc c =>
        (drain (backtrack fuel (setCell (trialRules acc.1 x y).1 x y c)).1
          (trialRules acc.1 x y).2,
         acc.2 ++ (backtrack fuel (setCell (trialRules acc.1 x y).1 x y c)).2)) acc).1 = b := by
  intro cs
  induction cs with
  | nil => intro acc h; exact h
  | cons c cs ihc =>
    intro acc hacc
    rw [List.foldl_cons]
    refine ihc _ ?_
    show drain (backtrack fuel (setCell (trialRules acc.1 x y).1 x y c)).1
        (trialRules acc.1 x y).2 = b
    rw [hacc, ih]
    exact trial_restore b c hpivot

theorem backtrack_fst : ∀ (fuel : Nat) (b : Board), (backtrack fuel b).1 = b := by
  intro fuel
  induction fuel with
  | zero => intro b; rfl
  | succ fuel ih =>
    intro b
    rw [backtrack_succ]
    by_cases h1 : okay b = false
    · rw [if_pos h1]
    · rw [if_neg h1]
      by_cases h2 : solved b = true
      · rw [if_pos h2]
      · rw [if_neg h2]
        by_cases h3 : (nextOpenCell b).1 = -1 ∨ (nextOpenCell b).2 = -1
        · rw [if_pos h3]
        · rw [if_neg h3]
          obtain ⟨-, -, hpivot⟩ := nextOpenCell_found h3
          exact backtrack_foldl_fst fuel _ _ b ih hpivot _ (b, []) rfl

theorem backtrack_foldl_eq (fuel x y : Nat) (b : Board)
    (ih : ∀ b', backtrack fuel b' = (b', backtrackSols fuel b'))
    (hpivot : getCell b x y = 0) :
    ∀ (cs : List Nat) (acc : Board × List Board), acc.1 = b →
    cs.foldl (fun acc c =>
        (drain (backtrack fuel (setCell (trialRules acc.1 x y).1 x y c)).1
          (trialRules acc.1 x y).2,
         acc.2 ++ (backtrack fuel (setCell (trialRules acc.1 x y).1 x y c)).2)) acc =
      (b, cs.foldl
        (fun acc c => acc ++ backtrackSols fuel (setCell (trialRules b x y).1 x y c)) acc.2) := by
  intro cs
  induction cs with
  | nil =>
    intro acc hacc
    exact Prod.ext hacc rfl
  | cons c cs ihc =>
    intro acc hacc
    rw [List.foldl_cons, List.foldl_cons]
    have hfst : (drain (backtrack fuel (setCell (trialRules acc.1 x y).1 x y c)).1
        (trialRules acc.1 x y).2,
       acc.2 ++ (backtrack fuel (setCell (trialRules acc.1 x y).1 x y c)).2).1 = b := by
      show drain (backtrack fuel (setCell (trialRules acc.1 x y).1 x y c)).1
        (trialRules acc.1 x y).2 = b
      rw [hacc, ih]
      exact trial_restore b c hpivot
    have hmain := ihc (drain (backtrack fuel (setCell (trialRules acc.1 x y).1 x y c)).1
        (trialRules acc.1 x y).2,
       acc.2 ++ (backtrack fuel (setCell (trialRules acc.1 x y).1 x y c)).2) hfst
    have hsnd : (drain (backtrack fuel (setCell (trialRules acc.1 x y).1 x y c)).1
        (trialRules acc.1 x y).2,
       acc.2 ++ (backtrack fuel (setCell (trialRules acc.1 x y).1 x y c)).2).2 =
        acc.2 ++ backtrackSols fuel (setCell (trialRules b x y).1 x y c) := by
      show acc.2 ++ (backtrack fuel (setCell (trialRules acc.1 x y).1 x y c)).2 = _
      rw [hacc, ih]
    rw [hsnd] at hmain
    exact hmain

theorem backtrack_eq_sols : ∀ (fuel : Nat) (b : Board),
    backtrack fuel b = (b, backtrackSols fuel b) := by
  intro fuel
  induction fuel with
  | zero => intro b; rfl
  | succ fuel ih =>
    intro b
    rw [backtrack_succ, backtrackSols_succ]
    by_cases h1 : okay b = false
    · rw [if_pos h1, if_pos h1]
    · rw [if_neg h1, if_neg h1]
      by_cases h2 : solved b = true
      · rw [if_pos h2, if_pos h2]
      · rw [if_neg h2, if_neg h2]
        by_cases h3 : (nextOpenCell b).1 = -1 ∨ (nextOpenCell b).2 = -1
        · rw [if_pos h3, if_pos h3]
        · rw [if_neg h3, if_neg h3]
          obtain ⟨-, -, hpivot⟩ := nextOpenCell_found h3
          exact backtrack_foldl_eq fuel _ _ b ih hpivot _ (b, []) rfl

theorem solve_eq_sols (b : Board) : solve b =
    if okay b = false then none
    else if (backtrackSols (countZeros b + 1) b).isEmpty then none
    else some (backtrackSols (countZeros b + 1) b) := by
  unfold solve
  rw [backtrack_eq_sols]
  rfl

end Sudoku

/-! ### The row, column and square views, cell-wise -/

namespace Sudoku

theorem columns_getD {b : Board} (hwf : Wf b) {x : Nat} (hx : x < 9) :
    (columns b).getD x [] = b.map (fun row => row.getD x 0) := by
  unfold columns transpose
  rw [List.getD_eq_getElem _ _ (by rw [List.length_map, List.length_range, hwf.1]; omega),
    List.getElem_map, List.getElem_range]

theorem mem_row_iff {b : Board} (hwf : Wf b) {y v : Nat} (hy : y < 9) :
    v ∈ b.getD y [] ↔ ∃ j, j < 9 ∧ getCell b j y = v := by
  rw [List.mem_iff_getElem]
  constructor
  · rintro ⟨j, hj, rfl⟩
    refine ⟨j, by rw [Wf_row_len hwf hy] at hj; exact hj, ?_⟩
    unfold getCell
    rw [List.getD_eq_getElem _ _ hj]
  · rintro ⟨j, hj, rfl⟩
    have hlen : j < (b.getD y []).length := by rw [Wf_row_len hwf hy]; exact hj
    refine ⟨j, hlen, ?_⟩
    unfold getCell
    rw [List.getD_eq_getElem _ _ hlen]

theorem mem_col_iff {b : Board} (hwf : Wf b) {x v : Nat} (hx : x < 9) :
    v ∈ (columns b).getD x [] ↔ ∃ i, i < 9 ∧ getCell b x i = v := by
  have col_getElem : ∀ {i : Nat}, i < 9 → ∀ h : i < (b.map (fun row => row.getD x 0)).length,
      (b.map (fun row => row.getD x 0))[i] = getCell b x i := by
    intro i hi9 h
    rw [List.getElem_map]
    unfold getCell
    rw [List.getD_eq_getElem b [] (show i < b.length by rw [hwf.1]; exact hi9)]
  rw [columns_getD hwf hx, List.mem_iff_getElem]
  constructor
  · rintro ⟨i, hi, rfl⟩
    have hi9 : i < 9 := by rw [List.length_map, hwf.1] at hi; exact hi
    exact ⟨i, hi9, (col_getElem hi9 hi).symm⟩
  · rintro ⟨i, hi9, rfl⟩
    have hi : i < (b.map (fun row => row.getD x 0)).length := by
      rw [List.length_map, hwf.1]
      exact hi9
    exact ⟨i, hi, col_getElem hi9 hi⟩

theorem take3_drop {b : Board} (hwf : Wf b) {a : Nat} (ha : a + 3 ≤ 9) :
    (b.drop a).take 3 = [b.getD a [], b.getD (a + 1) [], b.getD (a + 2) []] := by
  have hlen : ((b.drop a).take 3).length = 3 := by
    rw [List.length_take, List.length_drop, hwf.1]
    omega
  apply List.ext_getElem
  · rw [hlen]; rfl
  · intro i h1 h2
    rw [List.getElem_take _, List.getElem_drop _]
    rw [hlen] at h1
    interval_cases i <;>
      simp only [List.getElem_cons_zero, List.getElem_cons_succ] <;>
      rw [List.getD_eq_getElem _ _ (by rw [hwf.1]; omega)] <;>
      simp only [Nat.add_zero]

theorem row_take3 {row : List Nat} (h9 : row.length = 9) {c : Nat} (hc : c + 3 ≤ 9) :
    (row.drop c).take 3 = [row.getD c 0, row.getD (c + 1) 0, row.getD (c + 2) 0] := by
  have hlen : ((row.drop c).take 3).length = 3 := by
    rw [List.length_take, List.length_drop, h9]
    omega
  apply List.ext_getElem
  · rw [hlen]; rfl
  · intro i h1 h2
    rw [List.getElem_take _, List.getElem_drop _]
    rw [hlen] at h1
    interval_cases i <;>
      simp only [List.getElem_cons_zero, List.getElem_cons_succ] <;>
      rw [List.getD_eq_getElem _ _ (by rw [h9]; omega)] <;>
      simp only [Nat.add_zero]

theorem squares_getD_eq {b : Board} (hwf : Wf b) {k : Nat} (hk : k < 9) :
    (squares b).getD k [] =
      ((b.drop ((k / 3) * 3)).take 3).flatMap
        (fun row => (row.drop ((k % 3) * 3)).take 3) := by
  unfold squares
  rw [List.getD_eq_getElem _ _ (by rw [List.length_map, List.length_range]; omega),
    List.getElem_map, List.getElem_range]

theorem square_explicit {b : Board} (hwf : Wf b) {k : Nat} (hk : k < 9) :
    (squares b).getD k [] =
      [getCell b ((k % 3) * 3) ((k / 3) * 3), getCell b ((k % 3) * 3 + 1) ((k / 3) * 3),
       getCell b ((k % 3) * 3 + 2) ((k / 3) * 3),
       getCell b ((k % 3) * 3) ((k / 3) * 3 + 1), getCell b ((k % 3) * 3 + 1) ((k / 3) * 3 + 1),
       getCell b ((k % 3) * 3 + 2) ((k / 3) * 3 + 1),
       getCell b ((k % 3) * 3) ((k / 3) * 3 + 2), getCell b ((k % 3) * 3 + 1) ((k / 3) * 3 + 2),
       getCell b ((k % 3) * 3 + 2) ((k / 3) * 3 + 2)] := by
  rw [squares_getD_eq hwf hk, take3_drop hwf (by omega)]
  have hrow : ∀ i : Nat, i < 9 → (((b.getD i []).drop ((k % 3) * 3)).take 3) =
      [getCell b ((k % 3) * 3) i, getCell b ((k % 3) * 3 + 1) i,
        getCell b ((k % 3) * 3 + 2) i] := by
    intro i hi
    exact row_take3 (Wf_row_len hwf hi) (by omega)
  show ((((b.getD ((k / 3) * 3) []).drop ((k % 3) * 3)).take 3) ++
      ((((b.getD ((k / 3) * 3 + 1) []).drop ((k % 3) * 3)).take 3) ++
      ((((b.getD ((k / 3) * 3 + 2) []).drop ((k % 3) * 3)).take 3) ++ []))) = _
  rw [hrow _ (by omega), hrow _ (by omega), hrow _ (by omega)]
  rfl

theorem mem_square_iff {b : Board} (hwf : Wf b) {k v : Nat} (hk : k < 9) :
    v ∈ (squares b).getD k [] ↔
      ∃ j i, j < 9 ∧ i < 9 ∧ j / 3 = k % 3 ∧ i / 3 = k / 3 ∧ getCell b j i = v := by
  rw [square_explicit hwf hk]
  simp only [List.mem_cons, List.not_mem_nil, or_false]
  constructor
  · intro hmem
    rcases hmem with h | h | h | h | h | h | h | h | h
    · exact ⟨(k % 3) * 3, (k / 3) * 3, by omega, by omega, by omega, by omega, h.symm⟩
    · exact ⟨(k % 3) * 3 + 1, (k / 3) * 3, by omega, by omega, by omega, by omega, h.symm⟩
    · exact ⟨(k % 3) * 3 + 2, (k / 3) * 3, by omega, by omega, by omega, by omega, h.symm⟩
    · exact ⟨(k % 3) * 3, (k / 3) * 3 + 1, by omega, by omega, by omega, by omega, h.symm⟩
    · exact ⟨(k % 3) * 3 + 1, (k / 3) * 3 + 1, by omega, by omega, by omega, by omega, h.symm⟩
    · exact ⟨(k % 3) * 3 + 2, (k / 3) * 3 + 1, by omega, by omega, by omega, by omega, h.symm⟩
    · exact ⟨(k % 3) * 3, (k / 3) * 3 + 2, by omega, by omega, by omega, by omega, h.symm⟩
    · exact ⟨(k % 3) * 3 + 1, (k / 3) * 3 + 2, by omega, by omega, by omega, by omega, h.symm⟩
    · exact ⟨(k % 3) * 3 + 2, (k / 3) * 3 + 2, by omega, by omega, by omega, by omega, h.symm⟩
  · rintro ⟨j, i, hj, hi, hjk, hik, rfl⟩
    have ha : j % 3 = 0 ∨ j % 3 = 1 ∨ j % 3 = 2 := by omega
    have hc : i % 3 = 0 ∨ i % 3 = 1 ∨ i % 3 = 2 := by omega
    rcases ha with ha | ha | ha <;> rcases hc with hc | hc | hc
    · exact Or.inl (by rw [show j = (k % 3) * 3 from by omega, show i = (k / 3) * 3 from by omega])
    · exact Or.inr (Or.inr (Or.inr (Or.inl (by rw [show j = (k % 3) * 3 from by omega, show i = (k / 3) * 3 + 1 from by omega]))))
    · exact Or.inr (Or.inr (Or.inr (Or.inr (Or.inr (Or.inr (Or.inl (by rw [show j = (k % 3) * 3 from by omega, show i = (k / 3) * 3 + 2 from by omega])))))))
    · exact Or.inr (Or.inl (by rw [show j = (k % 3) * 3 + 1 from by omega, show i = (k / 3) * 3 from by omega]))
    · exact Or.inr (Or.inr (Or.inr (Or.inr (Or.inl (by rw [show j = (k % 3) * 3 + 1 from by omega, show i = (k / 3) * 3 + 1 from by omega])))))
    · exact Or.inr (Or.inr (Or.inr (Or.inr (Or.inr (Or.inr (Or.inr (Or.inl (by rw [show j = (k % 3) * 3 + 1 from by omega, show i = (k / 3) * 3 + 2 from by omega]))))))))
    · exact Or.inr (Or.inr (Or.inl (by rw [show j = (k % 3) * 3 + 2 from by omega, show i = (k / 3) * 3 from by omega])))
    · exact Or.inr (Or.inr (Or.inr (Or.inr (Or.inr (Or.inl (by rw [show j = (k % 3) * 3 + 2 from by omega, show i = (k / 3) * 3 + 1 from by omega]))))))
    · exact Or.inr (Or.inr (Or.inr (Or.inr (Or.inr (Or.inr (Or.inr (Or.inr ((by rw [show j = (k % 3) * 3 + 2 from by omega, show i = (k / 3) * 3 + 2 from by omega])))))))))

end Sudoku

/-! ### `isUnique` and `okay`, cell-wise -/

namespace Sudoku

theorem isUnique_iff (l : List Nat) :
    isUnique l = true ↔ (l.filter (fun v => v != 0)).Nodup := by
  unfold isUnique
  rw [beq_iff_eq]
  constructor
  · intro h
    have hsub := List.dedup_sublist (l.filter (fun v => v != 0))
    have heq := hsub.eq_of_length h
    rw [← heq]
    exact List.nodup_dedup _
  · intro h
    rw [List.dedup_eq_self.mpr h]

theorem two_le_count_of_getD {l : List Nat} {i j v : Nat} (hij : i < j) (hj : j < l.length)
    (hvi : l.getD i 0 = v) (hvj : l.getD j 0 = v) : 2 ≤ l.count v := by
  have hi : i < l.length := by omega
  have h1 : l = l.take (i + 1) ++ l.drop (i + 1) := (List.take_append_drop _ _).symm
  have hmem1 : v ∈ l.take (i + 1) := by
    rw [List.mem_iff_getElem]
    refine ⟨i, by rw [List.length_take]; omega, ?_⟩
    rw [List.getElem_take _]
    rw [List.getD_eq_getElem _ _ hi] at hvi
    exact hvi
  have hmem2 : v ∈ l.drop (i + 1) := by
    rw [List.mem_iff_getElem]
    refine ⟨j - (i + 1), by rw [List.length_drop]; omega, ?_⟩
    rw [List.getElem_drop _]
    rw [List.getD_eq_getElem _ _ hj] at hvj
    have : i + 1 + (j - (i + 1)) = j := by omega
    simp only [this]
    exact hvj
  calc 2 = 1 + 1 := rfl
    _ ≤ (l.take (i + 1)).count v + (l.drop (i + 1)).count v :=
        Nat.add_le_add (List.count_pos_iff.mpr hmem1) (List.count_pos_iff.mpr hmem2)
    _ = l.count v := by rw [← List.count_append, ← h1]

theorem exists_getD_of_two_le_count : ∀ {l : List Nat} {v : Nat}, 2 ≤ l.count v →
    ∃ i j, i < j ∧ j < l.length ∧ l.getD i 0 = v ∧ l.getD j 0 = v := by
  intro l
  induction l with
  | nil => intro v h; simp [List.count_nil] at h
  | cons a t ih =>
    intro v h
    rw [List.count_cons] at h
    by_cases hav : a = v
    · have h1 : 1 ≤ t.count v := by
        by_contra hlt
        have : t.count v = 0 := by omega
        rw [this] at h
        split_ifs at h <;> omega
      have hmem : v ∈ t := List.count_pos_iff.mp (by omega)
      rw [List.mem_iff_getElem] at hmem
      obtain ⟨jt, hjt, hv⟩ := hmem
      refine ⟨0, jt + 1, by omega, by simp only [List.length_cons]; omega, by simpa using hav, ?_⟩
      have : (a :: t).getD (jt + 1) 0 = t.getD jt 0 := rfl
      rw [this, List.getD_eq_getElem _ _ hjt]
      exact hv
    · have h2 : 2 ≤ t.count v := by
        have hba : (a == v) = false := by simpa using hav
        rw [hba] at h
        simpa using h
      obtain ⟨i, j, hij, hj, hvi, hvj⟩ := ih h2
      exact ⟨i + 1, j + 1, by omega, by simp only [List.length_cons]; omega, hvi, hvj⟩

theorem isUnique_false_of_dup {l : List Nat} {i j v : Nat} (hij : i < j) (hj : j < l.length)
    (hv : v ≠ 0) (hvi : l.getD i 0 = v) (hvj : l.getD j 0 = v) : isUnique l = false := by
  rw [← Bool.not_eq_true, isUnique_iff]
  intro hnd
  have hcount := two_le_count_of_getD hij hj hvi hvj
  have hfil : (l.filter (fun v => v != 0)).count v = l.count v :=
    List.count_filter (by simpa using hv)
  have := (List.nodup_iff_count_le_one.mp hnd) v
  omega

theorem exists_dup_of_isUnique_false {l : List Nat} (h : isUnique l = false) :
    ∃ v i j, v ≠ 0 ∧ i < j ∧ j < l.length ∧ l.getD i 0 = v ∧ l.getD j 0 = v := by
  rw [← Bool.not_eq_true, isUnique_iff] at h
  rw [List.nodup_iff_count_le_one] at h
  push_neg at h
  obtain ⟨v, hv⟩ := h
  have hv2 : 2 ≤ (l.filter (fun v => v != 0)).count v := hv
  have hvne : v ≠ 0 := by
    have hmem : v ∈ l.filter (fun v => v != 0) := List.count_pos_iff.mp (by omega)
    have := List.of_mem_filter hmem
    simpa using this
  have hcnt : 2 ≤ l.count v := by
    have hfil : (l.filter (fun v => v != 0)).count v = l.count v :=
      List.count_filter (by simpa using hvne)
    omega
  obtain ⟨i, j, hij, hj, hvi, hvj⟩ := exists_getD_of_two_le_count hcnt
  exact ⟨v, i, j, hvne, hij, hj, hvi, hvj⟩

theorem okay_iff_groups {b : Board} (hwf : Wf b) : okay b = true ↔
    (∀ y, y < 9 → isUnique (b.getD y []) = true) ∧
    (∀ x, x < 9 → isUnique ((columns b).getD x []) = true) ∧
    (∀ k, k < 9 → isUnique ((squares b).getD k []) = true) := by
  unfold okay
  simp only [rows]
  rw [Bool.and_eq_true, Bool.and_eq_true, List.all_eq_true, List.all_eq_true, List.all_eq_true]
  have hclen : (columns b).length = 9 := by
    unfold columns transpose
    rw [List.length_map, List.length_range, hwf.1]
  have hslen : (squares b).length = 9 := by
    unfold squares
    rw [List.length_map, List.length_range]
  constructor
  · rintro ⟨⟨hr, hc⟩, hs⟩
    refine ⟨?_, ?_, ?_⟩
    · intro y hy
      exact hr _ (getD_mem [] (by rw [hwf.1]; omega))
    · intro x hx
      exact hc _ (getD_mem [] (by rw [hclen]; omega))
    · intro k hk
      exact hs _ (getD_mem [] (by rw [hslen]; omega))
  · rintro ⟨hr, hc, hs⟩
    refine ⟨⟨?_, ?_⟩, ?_⟩
    · intro l hl
      obtain ⟨y, hy, rfl⟩ := List.mem_iff_getElem.mp hl
      have hy9 : y < 9 := by rw [← hwf.1]; exact hy
      have := hr y hy9
      rwa [List.getD_eq_getElem _ _ hy] at this
    · intro l hl
      obtain ⟨x, hx, rfl⟩ := List.mem_iff_getElem.mp hl
      have hx9 : x < 9 := by rw [← hclen]; exact hx
      have := hc x hx9
      rwa [List.getD_eq_getElem _ _ hx] at this
    · intro l hl
      obtain ⟨k, hk, rfl⟩ := List.mem_iff_getElem.mp hl
      have hk9 : k < 9 := by rw [← hslen]; exact hk
      have := hs k hk9
      rwa [List.getD_eq_getElem _ _ hk] at this

end Sudoku

/-! ### `okay` as a cell-wise property -/

namespace Sudoku

theorem col_getD {b : Board} (hwf : Wf b) {x i : Nat} (hx : x < 9) (hi : i < 9) :
    ((columns b).getD x []).getD i 0 = getCell b x i := by
  rw [columns_getD hwf hx, getD_map _ 0 [] (by rw [hwf.1]; exact hi)]
  rfl

theorem col_length {b : Board} (hwf : Wf b) {x : Nat} (hx : x < 9) :
    ((columns b).getD x []).length = 9 := by
  rw [columns_getD hwf hx, List.length_map, hwf.1]

theorem square_getD {b : Board} (hwf : Wf b) {k m : Nat} (hk : k < 9) (hm : m < 9) :
    ((squares b).getD k []).getD m 0 =
      getCell b ((k % 3) * 3 + m % 3) ((k / 3) * 3 + m / 3) := by
  rw [square_explicit hwf hk]
  interval_cases m <;> norm_num

theorem square_length {b : Board} (hwf : Wf b) {k : Nat} (hk : k < 9) :
    ((squares b).getD k []).length = 9 := by
  rw [square_explicit hwf hk]
  rfl

theorem okaySpec_of_okay {b : Board} (hwf : Wf b) (h : okay b = true) : OkaySpec b := by
  rw [okay_iff_groups hwf] at h
  obtain ⟨hr, hc, hs⟩ := h
  rintro ⟨x1, y1⟩ ⟨x2, y2⟩ hx1 hy1 hx2 hy2 hpq hg hnz heq
  simp only at hx1 hy1 hx2 hy2 hnz heq
  rcases hg with hgr | hgc | hgb
  · simp only at hgr
    subst hgr
    have hxne : x1 ≠ x2 := fun hh => hpq (by rw [hh])
    rcases Nat.lt_or_ge x1 x2 with hlt | hge
    · have hfalse := isUnique_false_of_dup (l := b.getD y1 []) hlt
        (by rw [Wf_row_len hwf hy1]; exact hx2) hnz rfl heq.symm
      rw [hr y1 hy1] at hfalse
      simp at hfalse
    · have hlt : x2 < x1 := by omega
      have hfalse := isUnique_false_of_dup (l := b.getD y1 []) hlt
        (by rw [Wf_row_len hwf hy1]; exact hx1) hnz heq.symm rfl
      rw [hr y1 hy1] at hfalse
      simp at hfalse
  · simp only at hgc
    subst hgc
    have hyne : y1 ≠ y2 := fun hh => hpq (by rw [hh])
    have hv1 : ((columns b).getD x1 []).getD y1 0 = getCell b x1 y1 := col_getD hwf hx1 hy1
    have hv2 : ((columns b).getD x1 []).getD y2 0 = getCell b x1 y2 := col_getD hwf hx1 hy2
    rcases Nat.lt_or_ge y1 y2 with hlt | hge
    · have hfalse := isUnique_false_of_dup (l := (columns b).getD x1 []) hlt
        (by rw [col_length hwf hx1]; exact hy2) hnz (by rw [hv1]) (by rw [hv2]; exact heq.symm)
      rw [hc x1 hx1] at hfalse
      simp at hfalse
    · have hlt : y2 < y1 := by omega
      have hfalse := isUnique_false_of_dup (l := (columns b).getD x1 []) hlt
        (by rw [col_length hwf hx1]; exact hy1) hnz (by rw [hv2]; exact heq.symm) (by rw [hv1])
      rw [hc x1 hx1] at hfalse
      simp at hfalse
  · simp only at hgb
    obtain ⟨hbx, hby⟩ := hgb
    set k := (y1 / 3) * 3 + x1 / 3 with hkdef
    have hk : k < 9 := by omega
    have hk3 : k % 3 = x1 / 3 ∧ k / 3 = y1 / 3 := by constructor <;> omega
    set m1 := (y1 % 3) * 3 + x1 % 3 with hm1def
    set m2 := (y2 % 3) * 3 + x2 % 3 with hm2def
    have hm1 : m1 < 9 := by omega
    have hm2 : m2 < 9 := by omega
    have hcoord1 : (k % 3) * 3 + m1 % 3 = x1 ∧ (k / 3) * 3 + m1 / 3 = y1 := by
      constructor <;> omega
    have hcoord2 : (k % 3) * 3 + m2 % 3 = x2 ∧ (k / 3) * 3 + m2 / 3 = y2 := by
      constructor <;> omega
    have hv1 : ((squares b).getD k []).getD m1 0 = getCell b x1 y1 := by
      rw [square_getD hwf hk hm1, hcoord1.1, hcoord1.2]
    have hv2 : ((squares b).getD k []).getD m2 0 = getCell b x2 y2 := by
      rw [square_getD hwf hk hm2, hcoord2.1, hcoord2.2]
    have hmne : m1 ≠ m2 := by
      intro hmm
      apply hpq
      have hx12 : x1 = x2 := by omega
      have hy12 : y1 = y2 := by omega
      rw [hx12, hy12]
    rcases Nat.lt_or_ge m1 m2 with hlt | hge
    · have hfalse := isUnique_false_of_dup (l := (squares b).getD k []) hlt
        (by rw [square_length hwf hk]; exact hm2) hnz (by rw [hv1]) (by rw [hv2]; exact heq.symm)
      rw [hs k hk] at hfalse
      simp at hfalse
    · have hlt : m2 < m1 := by omega
      have hfalse := isUnique_false_of_dup (l := (squares b).getD k []) hlt
        (by rw [square_length hwf hk]; exact hm1) hnz (by rw [hv2]; exact heq.symm) (by rw [hv1])
      rw [hs k hk] at hfalse
      simp at hfalse

theorem dup_cells_of_okay_false {b : Board} (hwf : Wf b) (h : okay b = false) :
    ∃ p q : Nat × Nat, p.1 < 9 ∧ p.2 < 9 ∧ q.1 < 9 ∧ q.2 < 9 ∧ p ≠ q ∧ SameGroup p q ∧
      getCell b p.1 p.2 ≠ 0 ∧ getCell b p.1 p.2 = getCell b q.1 q.2 := by
  have hne : ¬(okay b = true) := by rw [h]; simp
  rw [okay_iff_groups hwf] at hne
  push_neg at hne
  by_cases hrow : ∀ y, y < 9 → isUnique (b.getD y []) = true
  · by_cases hcol : ∀ x, x < 9 → isUnique ((columns b).getD x []) = true
    · have hsq := hne hrow hcol
      obtain ⟨k, hk, hku⟩ := hsq
      have hkf : isUnique ((squares b).getD k []) = false := by
        cases hb : isUnique ((squares b).getD k [])
        · rfl
        · exact absurd hb hku
      obtain ⟨v, m1, m2, hv0, hm12, hm2len, hvm1, hvm2⟩ := exists_dup_of_isUnique_false hkf
      rw [square_length hwf hk] at hm2len
      have hm1l : m1 < 9 := by omega
      rw [square_getD hwf hk hm1l] at hvm1
      rw [square_getD hwf hk hm2len] at hvm2
      refine ⟨((k % 3) * 3 + m1 % 3, (k / 3) * 3 + m1 / 3),
        ((k % 3) * 3 + m2 % 3, (k / 3) * 3 + m2 / 3),
        by simp only; omega, by simp only; omega, by simp only; omega, by simp only; omega,
        ?_, ?_, ?_, ?_⟩
      · intro hh
        rw [Prod.mk.injEq] at hh
        omega
      · right; right
        constructor <;> (simp only; omega)
      · simp only
        rw [hvm1]; exact hv0
      · simp only
        rw [hvm1, hvm2]
    · push_neg at hcol
      obtain ⟨x, hx, hxu⟩ := hcol
      have hxf : isUnique ((columns b).getD x []) = false := by
        cases hb : isUnique ((columns b).getD x [])
        · rfl
        · exact absurd hb hxu
      obtain ⟨v, i1, i2, hv0, hi12, hi2len, hvi1, hvi2⟩ := exists_dup_of_isUnique_false hxf
      rw [col_length hwf hx] at hi2len
      have hi1l : i1 < 9 := by omega
      rw [col_getD hwf hx hi1l] at hvi1
      rw [col_getD hwf hx hi2len] at hvi2
      refine ⟨(x, i1), (x, i2), hx, hi1l, hx, hi2len, ?_, Or.inr (Or.inl rfl), ?_, ?_⟩
      · intro hh
        rw [Prod.mk.injEq] at hh
        omega
      · simp only
        rw [hvi1]; exact hv0
      · simp only
        rw [hvi1, hvi2]
  · push_neg at hrow
    obtain ⟨y, hy, hyu⟩ := hrow
    have hyf : isUnique (b.getD y []) = false := by
      cases hb : isUnique (b.getD y [])
      · rfl
      · exact absurd hb hyu
    obtain ⟨v, j1, j2, hv0, hj12, hj2len, hvj1, hvj2⟩ := exists_dup_of_isUnique_false hyf
    rw [Wf_row_len hwf hy] at hj2len
    have hj1l : j1 < 9 := by omega
    refine ⟨(j1, y), (j2, y), hj1l, hy, hj2len, hy, ?_, Or.inl rfl, ?_, ?_⟩
    · intro hh
      rw [Prod.mk.injEq] at hh
      omega
    · show getCell b j1 y ≠ 0
      show (b.getD y []).getD j1 0 ≠ 0
      rw [hvj1]; exact hv0
    · show getCell b j1 y = getCell b j2 y
      show (b.getD y []).getD j1 0 = (b.getD y []).getD j2 0
      rw [hvj1, hvj2]

theorem solved_iff {b : Board} (hwf : Wf b) : solved b = true ↔
    okay b = true ∧ ∀ x y, x < 9 → y < 9 → getCell b x y ≠ 0 := by
  unfold solved
  rw [Bool.and_eq_true, List.all_eq_true]
  constructor
  · rintro ⟨hok, hall⟩
    refine ⟨hok, ?_⟩
    intro x y hx hy
    have hmem : getCell b x y ∈ b.flatten := by
      rw [List.mem_flatten]
      refine ⟨b.getD y [], getD_mem [] (by rw [hwf.1]; omega), ?_⟩
      unfold getCell
      exact getD_mem 0 (by rw [Wf_row_len hwf hy]; omega)
    have := hall _ hmem
    simpa using this
  · rintro ⟨hok, hcells⟩
    refine ⟨hok, ?_⟩
    intro v hv
    rw [List.mem_flatten] at hv
    obtain ⟨row, hrow, hvrow⟩ := hv
    obtain ⟨y, hy, rfl⟩ := List.mem_iff_getElem.mp hrow
    obtain ⟨x, hx, rfl⟩ := List.mem_iff_getElem.mp hvrow
    have hy9 : y < 9 := by rw [← hwf.1]; exact hy
    have hx9 : x < 9 := by
      have := Wf_row_len hwf hy9
      rw [List.getD_eq_getElem _ _ hy] at this
      omega
    have := hcells x y hx9 hy9
    unfold getCell at this
    rw [List.getD_eq_getElem _ _ hy, List.getD_eq_getElem _ _ hx] at this
    simpa using this

end Sudoku

/-! ### The candidate list, specification-level (claim C7's shape) -/

namespace Sudoku

theorem bool_eq_of_iff {a b : Bool} (h : a = true ↔ b = true) : a = b := by
  cases a <;> cases b <;> simp_all

theorem candidates_eq_spec {b : Board} (hwf : Wf b) {x y : Nat} (hx : x < 9) (hy : y < 9) :
    candidates b x y = candidatesSpec b x y := by
  unfold candidates candidatesSpec
  by_cases h0 : getCell b x y = 0
  · rw [if_neg (by simpa using h0), if_neg (by simpa using h0)]
    have hbase : ((List.range 9).map (fun v => v + 1)) = List.range' 1 9 := by
      rw [List.range'_eq_map_range]
      exact List.map_congr_left (fun a _ => by omega)
    rw [hbase, List.filter_filter, List.filter_filter]
    apply List.filter_congr
    intro v hv
    apply bool_eq_of_iff
    have hk : (y / 3) * 3 + x / 3 < 9 := by omega
    have hrowiff : ((rows b).getD y []).contains v = true ↔ appearsInRow b y v := by
      show (b.getD y []).contains v = true ↔ _
      rw [List.elem_iff, mem_row_iff hwf hy]
      unfold appearsInRow
      constructor
      · rintro ⟨j, hj, hcell⟩; exact ⟨j, hj, hcell⟩
      · rintro ⟨j, hj, hcell⟩; exact ⟨j, hj, hcell⟩
    have hcoliff : ((columns b).getD x []).contains v = true ↔ appearsInCol b x v := by
      rw [List.elem_iff, mem_col_iff hwf hx]
      unfold appearsInCol
      constructor
      · rintro ⟨i, hi, hcell⟩; exact ⟨i, hi, hcell⟩
      · rintro ⟨i, hi, hcell⟩; exact ⟨i, hi, hcell⟩
    have hsqiff : ((squares b).getD ((y / 3) * 3 + x / 3) []).contains v = true ↔
        appearsInBox b x y v := by
      rw [List.elem_iff, mem_square_iff hwf hk]
      unfold appearsInBox
      constructor
      · rintro ⟨j, i, hj, hi, hjk, hik, hcell⟩
        exact ⟨j, hj, i, hi, by omega, by omega, hcell⟩
      · rintro ⟨j, hj, i, hi, hjk, hik, hcell⟩
        exact ⟨j, i, hj, hi, by omega, by omega, hcell⟩
    rw [decide_eq_true_iff]
    simp only [Bool.and_eq_true, Bool.not_eq_true']
    rw [← Bool.not_eq_true, ← Bool.not_eq_true, ← Bool.not_eq_true]
    rw [hrowiff, hcoliff, hsqiff]
    tauto
  · rw [if_pos (by simpa using h0), if_pos (by simpa using h0)]

end Sudoku

/-! ### Completions: solved extensions of a board -/

namespace Sudoku

theorem extends_refl (b : Board) : Extends b b := fun _ _ _ _ _ => rfl

theorem extends_trans {a b c : Board} (h1 : Extends a b) (h2 : Extends b c) :
    Extends a c := by
  intro u v hu hv hnz
  rw [h2 u v hu hv (by rw [h1 u v hu hv hnz]; exact hnz), h1 u v hu hv hnz]

theorem TrialInv.toExtends {b b' : Board} {log : List (Nat × Nat)}
    (h : TrialInv b b' log) : Extends b b' := by
  intro u v _ _ hnz
  have hnm : ((u, v) : Nat × Nat) ∉ log := fun hmem => hnz (h.wasZero _ hmem)
  exact h.frame (u, v) hnm

theorem getCell_le_of_Wf {b : Board} (hwf : Wf b) (x y : Nat) : getCell b x y ≤ 9 := by
  unfold getCell
  rcases Nat.lt_or_ge y b.length with hy | hy
  · have hrow : b.getD y [] ∈ b := getD_mem [] hy
    rcases Nat.lt_or_ge x (b.getD y []).length with hx | hx
    · exact (hwf.2 _ hrow).2 _ (getD_mem 0 hx)
    · rw [List.getD_eq_default _ _ hx]
      omega
  · rw [List.getD_eq_default _ _ hy]
    simp

theorem okay_of_completion {b h : Board} (hwf : Wf b) (hc : Completion b h) :
    okay b = true := by
  by_contra hne
  have hfalse : okay b = false := by
    cases hb : okay b
    · rfl
    · exact absurd hb hne
  obtain ⟨p, q, hp1, hp2, hq1, hq2, hpq, hg, hnz, heq⟩ := dup_cells_of_okay_false hwf hfalse
  obtain ⟨hwh, hsol, hext⟩ := hc
  have hhp : getCell h p.1 p.2 = getCell b p.1 p.2 := hext _ _ hp1 hp2 hnz
  have hq0 : getCell b q.1 q.2 ≠ 0 := by rw [← heq]; exact hnz
  have hhq : getCell h q.1 q.2 = getCell b q.1 q.2 := hext _ _ hq1 hq2 hq0
  have hok : okay h = true := ((solved_iff hwh).mp hsol).1
  have hspec := okaySpec_of_okay hwh hok
  exact hspec p q hp1 hp2 hq1 hq2 hpq hg (by rw [hhp]; exact hnz) (by rw [hhp, hhq, heq])

theorem candidates_mem_iff {b : Board} (hwf : Wf b) {x y v : Nat} (hx : x < 9) (hy : y < 9) :
    v ∈ candidates b x y ↔ (getCell b x y = 0 ∧ 1 ≤ v ∧ v ≤ 9 ∧
      ¬appearsInRow b y v ∧ ¬appearsInCol b x v ∧ ¬appearsInBox b x y v) := by
  rw [candidates_eq_spec hwf hx hy]
  unfold candidatesSpec
  by_cases h0 : getCell b x y = 0
  · rw [if_neg (by simpa using h0), List.mem_filter, decide_eq_true_iff, List.mem_range'_1]
    constructor
    · rintro ⟨hrange, hnotin⟩
      push_neg at hnotin
      exact ⟨h0, by omega, by omega, hnotin.1, hnotin.2.1, hnotin.2.2⟩
    · rintro ⟨-, h1, h9, hr, hc, hb⟩
      refine ⟨⟨by omega, by omega⟩, ?_⟩
      push_neg
      exact ⟨hr, hc, hb⟩
  · rw [if_pos (by simpa using h0)]
    simp only [List.not_mem_nil, false_iff]
    intro hcon
    exact h0 hcon.1

theorem completion_mem_candidates {b h : Board} (hwf : Wf b) (hc : Completion b h)
    {x y : Nat} (hx : x < 9) (hy : y < 9) (h0 : getCell b x y = 0) :
    getCell h x y ∈ candidates b x y := by
  obtain ⟨hwh, hsol, hext⟩ := hc
  obtain ⟨hok, hfull⟩ := (solved_iff hwh).mp hsol
  have hspec := okaySpec_of_okay hwh hok
  have hv0 : getCell h x y ≠ 0 := hfull x y hx hy
  have hv9 : getCell h x y ≤ 9 := getCell_le_of_Wf hwh x y
  rw [candidates_mem_iff hwf hx hy]
  refine ⟨h0, by omega, hv9, ?_, ?_, ?_⟩
  · rintro ⟨j, hj, hcell⟩
    have hjx : j ≠ x := fun hh => by
      rw [hh, h0] at hcell
      exact hv0 hcell.symm
    have hbj0 : getCell b j y ≠ 0 := by rw [hcell]; exact hv0
    have hh1 : getCell h j y = getCell h x y := by
      rw [hext j y hj hy hbj0, hcell]
    refine hspec (x, y) (j, y) hx hy hj hy ?_ (Or.inl rfl) hv0 hh1.symm
    intro hh
    rw [Prod.mk.injEq] at hh
    exact hjx hh.1.symm
  · rintro ⟨i, hi, hcell⟩
    have hiy : i ≠ y := fun hh => by
      rw [hh, h0] at hcell
      exact hv0 hcell.symm
    have hbi0 : getCell b x i ≠ 0 := by rw [hcell]; exact hv0
    have hh1 : getCell h x i = getCell h x y := by
      rw [hext x i hx hi hbi0, hcell]
    refine hspec (x, y) (x, i) hx hy hx hi ?_ (Or.inr (Or.inl rfl)) hv0 hh1.symm
    intro hh
    rw [Prod.mk.injEq] at hh
    exact hiy hh.2.symm
  · rintro ⟨j, hj, i, hi, hjx, hiy, hcell⟩
    have hne : (j, i) ≠ ((x, y) : Nat × Nat) := by
      intro hh
      rw [Prod.mk.injEq] at hh
      rw [hh.1, hh.2, h0] at hcell
      exact hv0 hcell.symm
    have hbj0 : getCell b j i ≠ 0 := by rw [hcell]; exact hv0
    have hh1 : getCell h j i = getCell h x y := by
      rw [hext j i hj hi hbj0, hcell]
    refine hspec (x, y) (j, i) hx hy hj hi (fun hh => hne (by rw [hh]))
      (Or.inr (Or.inr ⟨by simpa using hjx.symm, by simpa using hiy.symm⟩)) hv0 hh1.symm

end Sudoku

/-! ### Groups of nine cells and hidden-single soundness -/

namespace Sudoku

/-- A unit of the grid as the rules see it: nine distinct in-bounds cells
that pairwise share a row, column or square. -/
def GroupCells (cells : List (Nat × Nat)) : Prop :=
  cells.length = 9 ∧ (∀ p ∈ cells, p.1 < 9 ∧ p.2 < 9) ∧ cells.Nodup ∧
    ∀ p ∈ cells, ∀ q ∈ cells, SameGroup p q

theorem group_complete {h : Board} (hwh : Wf h) (hsol : solved h = true)
    {cells : List (Nat × Nat)} (hg : GroupCells cells)
    {v : Nat} (hv1 : 1 ≤ v) (hv9 : v ≤ 9) :
    ∃ p ∈ cells, getCell h p.1 p.2 = v := by
  obtain ⟨hlen, hbnd, hnd, hsg⟩ := hg
  obtain ⟨hok, hfull⟩ := (solved_iff hwh).mp hsol
  have hspec := okaySpec_of_okay hwh hok
  have hinj : ∀ p ∈ cells, ∀ q ∈ cells,
      getCell h p.1 p.2 = getCell h q.1 q.2 → p = q := by
    intro p hp q hq heq
    by_contra hne
    exact hspec p q (hbnd p hp).1 (hbnd p hp).2 (hbnd q hq).1 (hbnd q hq).2 hne
      (hsg p hp q hq) (hfull p.1 p.2 (hbnd p hp).1 (hbnd p hp).2) heq
  have hndvals : (cells.map (fun p => getCell h p.1 p.2)).Nodup := hnd.map_on hinj
  have hsub : (cells.map (fun p => getCell h p.1 p.2)).toFinset ⊆ Finset.Icc 1 9 := by
    intro w hw
    rw [List.mem_toFinset, List.mem_map] at hw
    obtain ⟨p, hp, rfl⟩ := hw
    have h1 := hfull p.1 p.2 (hbnd p hp).1 (hbnd p hp).2
    have h2 := getCell_le_of_Wf hwh p.1 p.2
    rw [Finset.mem_Icc]
    omega
  have hcard : (Finset.Icc 1 9).card ≤ (cells.map (fun p => getCell h p.1 p.2)).toFinset.card := by
    rw [List.toFinset_card_of_nodup hndvals, List.length_map, hlen, Nat.card_Icc]
  have heq := Finset.eq_of_subset_of_card_le hsub hcard
  have hvmem : v ∈ (cells.map (fun p => getCell h p.1 p.2)).toFinset := by
    rw [heq, Finset.mem_Icc]
    omega
  rw [List.mem_toFinset, List.mem_map] at hvmem
  obtain ⟨p, hp, hv⟩ := hvmem
  exact ⟨p, hp, hv⟩

theorem mem_difference_iff : ∀ (arrays : List (List Nat)) (a : List Nat) (v : Nat),
    v ∈ difference a arrays ↔ v ∈ a ∧ ∀ bs ∈ arrays, v ∉ bs := by
  intro arrays
  induction arrays with
  | nil =>
    intro a v
    constructor
    · intro hv
      exact ⟨hv, fun bs hbs => absurd hbs (List.not_mem_nil _)⟩
    · intro ⟨hv, _⟩
      exact hv
  | cons bs rest ih =>
    intro a v
    have hstep : difference a (bs :: rest) =
        difference (a.filter (fun x => !(bs.contains x))) rest := rfl
    rw [hstep, ih]
    rw [List.mem_filter]
    constructor
    · rintro ⟨⟨hva, hnb⟩, hrest⟩
      refine ⟨hva, ?_⟩
      intro cs hcs
      rcases List.mem_cons.mp hcs with rfl | hm
      · simpa using hnb
      · exact hrest cs hm
    · rintro ⟨hva, hall⟩
      refine ⟨⟨hva, ?_⟩, ?_⟩
      · have := hall bs (List.mem_cons_self _ _)
        simpa [List.elem_iff] using this
      · intro cs hcs
        exact hall cs (List.mem_cons_of_mem _ hcs)

theorem getD_mem_eraseIdx {α : Type} {l : List α} {m j : Nat} (d : α)
    (hm : m < l.length) (hne : m ≠ j) : l.getD m d ∈ l.eraseIdx j := by
  rw [List.eraseIdx_eq_take_drop_succ, List.mem_append]
  rcases Nat.lt_or_ge m j with hlt | hge
  · left
    rw [List.mem_iff_getElem]
    refine ⟨m, by rw [List.length_take]; omega, ?_⟩
    rw [List.getElem_take _, List.getD_eq_getElem _ _ hm]
  · right
    have hgt : j < m := by omega
    rw [List.mem_iff_getElem]
    refine ⟨m - (j + 1), by rw [List.length_drop]; omega, ?_⟩
    rw [List.getElem_drop _, List.getD_eq_getElem _ _ hm]
    congr 1
    omega

theorem diffs_sound {g h : Board} (hwf : Wf g) (hc : Completion g h)
    {cells : List (Nat × Nat)} (hgrp : GroupCells cells) {j v : Nat} (hj : j < 9)
    (hv : v ∈ (diffsOf g cells).getD j []) :
    getCell h (cells.getD j (0, 0)).1 (cells.getD j (0, 0)).2 = v := by
  obtain ⟨hlen, hbnd, hnd, hsg⟩ := hgrp
  have hjlen : j < cells.length := by omega
  have hp : cells.getD j (0, 0) ∈ cells := getD_mem (0, 0) hjlen
  have hpb := hbnd _ hp
  have hvc := diffsOf_subset_candidates g cells hjlen hv
  obtain ⟨hcell0, hv1, hv9, -, -, -⟩ := (candidates_mem_iff hwf hpb.1 hpb.2).mp hvc
  -- v is excluded from every other cell's candidate list
  have hvnotother : ∀ m, m < 9 → m ≠ j → v ∉ candidates g (cells.getD m (0, 0)).1
      (cells.getD m (0, 0)).2 := by
    intro m hm hmj hvm
    rw [diffsOf_getD g cells hjlen, mem_difference_iff] at hv
    have hmem : candidates g (cells.getD m (0, 0)).1 (cells.getD m (0, 0)).2 ∈
        (allowedOf g cells).eraseIdx j := by
      have := getD_mem_eraseIdx (j := j) ([] : List Nat) (l := allowedOf g cells)
        (m := m) (by unfold allowedOf; rw [List.length_map]; omega) hmj
      rwa [allowedOf_getD g cells (by omega)] at this
    exact hv.2 _ hmem hvm
  -- v appears somewhere in the group of h
  obtain ⟨q, hq, hqv⟩ := group_complete hc.1 hc.2.1 ⟨hlen, hbnd, hnd, hsg⟩ hv1 hv9
  obtain ⟨m, hmlen, hmq⟩ := List.mem_iff_getElem.mp hq
  have hm9 : m < 9 := by omega
  have hqm : q = cells.getD m (0, 0) := by rw [List.getD_eq_getElem _ _ hmlen, hmq]
  by_cases hmj : m = j
  · rw [hqm, hmj] at hqv
    exact hqv
  · exfalso
    have hqb := hbnd q hq
    by_cases hq0 : getCell g q.1 q.2 = 0
    · -- q empty in g: h's value there is a candidate of q, contradicting exclusion
      have := completion_mem_candidates hwf hc hqb.1 hqb.2 hq0
      rw [hqv] at this
      rw [hqm] at this
      exact hvnotother m hm9 hmj this
    · -- q filled in g with v: then v could not be a candidate at cell j
      have hgq : getCell g q.1 q.2 = v := by
        rw [← hc.2.2 q.1 q.2 hqb.1 hqb.2 hq0]
        exact hqv
      obtain ⟨-, -, -, hnr, hnc, hnb⟩ :=
        (candidates_mem_iff hwf hpb.1 hpb.2).mp hvc
      have hpq : SameGroup (cells.getD j (0, 0)) q := hsg _ hp q hq
      rcases hpq with hrow | hcol | hbox
      · exact hnr ⟨q.1, hqb.1, by rw [hrow]; exact hgq⟩
      · exact hnc ⟨q.2, hqb.2, by rw [← hcol] at hgq; exact hgq⟩
      · exact hnb ⟨q.1, hqb.1, q.2, hqb.2, hbox.1.symm, hbox.2.symm, hgq⟩

end Sudoku

/-! ### The rules preserve every completion -/

namespace Sudoku

theorem extends_setCell {g h : Board} (hext : Extends g h) (hwf : Wf g)
    {x y v : Nat} (hx : x < 9) (hy : y < 9) (hv : getCell h x y = v) :
    Extends (setCell g x y v) h := by
  intro u w hu hw hnz
  by_cases hp : ((u, w) : Nat × Nat) = (x, y)
  · have hux : u = x := congrArg Prod.fst hp
    have hwy : w = y := congrArg Prod.snd hp
    subst hux; subst hwy
    have hself : getCell (setCell g u w v) u w = v := by
      simpa using getCell_setCell_self_wf hwf (p := (u, w)) (w := v) ⟨hu, hw⟩
    rw [hself]
    exact hv
  · rw [getCell_setCell_ne _ _ hp] at hnz ⊢
    exact hext u w hu hw hnz

theorem completion_setCell {g h : Board} (hc : Completion g h) (hwf : Wf g)
    {x y v : Nat} (hx : x < 9) (hy : y < 9) (hv : getCell h x y = v) :
    Completion (setCell g x y v) h :=
  ⟨hc.1, hc.2.1, extends_setCell hc.2.2 hwf hx hy hv⟩

theorem scanCells_completion : ∀ (cells : List (Nat × Nat)) (g : Board) {h : Board},
    Wf g → (∀ p ∈ cells, p.1 < 9 ∧ p.2 < 9) → Completion g h →
    Completion (scanCells cells g).1 h := by
  intro cells
  induction cells with
  | nil => intro g h _ _ hc; exact hc
  | cons q rest ih =>
    intro g h hwf hb hc
    obtain ⟨j, i⟩ := q
    by_cases hcs : (candidates g j i).length = 1
    · have heq : scanCells ((j, i) :: rest) g =
          ((scanCells rest (setCell g j i ((candidates g j i).headD 0))).1,
            (j, i) :: (scanCells rest (setCell g j i ((candidates g j i).headD 0))).2) := by
        simp only [scanCells, hcs, if_true]
      rw [heq]
      have hwmem : (candidates g j i).headD 0 ∈ candidates g j i :=
        headD_mem_of_length_one hcs
      have hq := hb (j, i) (List.mem_cons_self _ _)
      have hcell0 : getCell g j i = 0 :=
        candidates_cell_zero (List.ne_nil_of_mem hwmem)
      have hhval : getCell h j i ∈ candidates g j i :=
        completion_mem_candidates hwf hc hq.1 hq.2 hcell0
      have hhw : getCell h j i = (candidates g j i).headD 0 := by
        obtain ⟨a, ha⟩ := List.length_eq_one.mp hcs
        rw [ha] at hhval hwmem ⊢
        rw [List.mem_singleton.mp hhval]
        rfl
      have hwf1 : Wf (setCell g j i ((candidates g j i).headD 0)) :=
        Wf_setCell hwf (candidates_mem_bounds hwmem).2
      exact ih _ hwf1 (fun p hp => hb p (List.mem_cons_of_mem _ hp))
        (completion_setCell hc hwf hq.1 hq.2 hhw)
    · have heq : scanCells ((j, i) :: rest) g = scanCells rest g := by
        simp only [scanCells, hcs, if_false]
      rw [heq]
      exact ih _ hwf (fun p hp => hb p (List.mem_cons_of_mem _ hp)) hc

theorem hiddenSingles_completion (g : Board) {h : Board} (hwf : Wf g)
    {cells : List (Nat × Nat)} (hgrp : GroupCells cells) (hc : Completion g h) :
    Completion (hiddenSingles g cells).1 h := by
  have hb := hgrp.2.1
  have main : ∀ (js : List Nat) (acc : Board × List (Nat × Nat)),
      TrialInv g acc.1 acc.2 → Completion acc.1 h →
      Completion (js.foldl
          (fun acc j =>
            if ((diffsOf g cells).getD j []).length = 1 then
              (setCell acc.1 (cells.getD j (0, 0)).1 (cells.getD j (0, 0)).2
                (((diffsOf g cells).getD j []).headD 0), acc.2 ++ [cells.getD j (0, 0)])
            else acc) acc).1 h := by
    intro js
    induction js with
    | nil => intro acc _ hcacc; exact hcacc
    | cons j js ihj =>
      intro acc hinv hcacc
      rw [List.foldl_cons]
      by_cases hd : ((diffsOf g cells).getD j []).length = 1
      · rw [if_pos hd]
        have hjlen : j < cells.length := by
          by_contra hge
          rw [List.getD_eq_default _ _ (by rw [diffsOf_length]; omega)] at hd
          simp at hd
        have hj9 : j < 9 := by rw [hgrp.1] at hjlen; exact hjlen
        have hwmem : ((diffsOf g cells).getD j []).headD 0 ∈ (diffsOf g cells).getD j [] :=
          headD_mem_of_length_one hd
        have hcand := diffsOf_subset_candidates g cells hjlen hwmem
        have hpb := hb _ (getD_mem (0, 0) hjlen)
        have hhval : getCell h (cells.getD j (0, 0)).1 (cells.getD j (0, 0)).2 =
            ((diffsOf g cells).getD j []).headD 0 :=
          diffs_sound hwf ⟨hcacc.1, hcacc.2.1, extends_trans hinv.toExtends hcacc.2.2⟩
            hgrp hj9 hwmem
        refine ihj _ (hinv.write (candidates_cell_zero (List.ne_nil_of_mem hcand))
            (candidates_mem_ne_zero hcand) (candidates_mem_bounds hcand).2) ?_
        exact completion_setCell hcacc (hinv.wf hwf) hpb.1 hpb.2 hhval
      · rw [if_neg hd]
        exact ihj _ hinv hcacc
  have hc0 : Completion ((g, ([] : List (Nat × Nat))) : Board × List (Nat × Nat)).1 h := hc
  exact main (List.range cells.length) (g, []) (TrialInv.refl g) hc0

end Sudoku

/-! ### The three unit shapes are groups; the whole trial preserves completions -/

namespace Sudoku

theorem rowCells_group {i : Nat} (hi : i < 9) : GroupCells (rowCells i) := by
  refine ⟨rfl, rowCells_bounds hi, ?_, ?_⟩
  · unfold rowCells
    refine List.Nodup.map_on ?_ (List.nodup_range 9)
    intro a _ b _ hab
    exact (Prod.mk.injEq _ _ _ _).mp hab |>.1
  · intro p hp q hq
    unfold rowCells at hp hq
    obtain ⟨a, -, rfl⟩ := List.mem_map.mp hp
    obtain ⟨c, -, rfl⟩ := List.mem_map.mp hq
    exact Or.inl rfl

theorem colCells_group {j : Nat} (hj : j < 9) : GroupCells (colCells j) := by
  refine ⟨rfl, colCells_bounds hj, ?_, ?_⟩
  · unfold colCells
    refine List.Nodup.map_on ?_ (List.nodup_range 9)
    intro a _ b _ hab
    exact (Prod.mk.injEq _ _ _ _).mp hab |>.2
  · intro p hp q hq
    unfold colCells at hp hq
    obtain ⟨a, -, rfl⟩ := List.mem_map.mp hp
    obtain ⟨c, -, rfl⟩ := List.mem_map.mp hq
    exact Or.inr (Or.inl rfl)

theorem boxCells_box {k : Nat} (hk : k < 9) :
    ∀ p ∈ boxCells k, p.1 / 3 = k % 3 ∧ p.2 / 3 = k / 3 := by
  intro p hp
  unfold boxCells at hp
  rw [List.mem_map] at hp
  obtain ⟨idx, hidx, rfl⟩ := hp
  rw [List.mem_map] at hidx
  obtain ⟨v, hv, rfl⟩ := hidx
  simp only [List.mem_cons, List.not_mem_nil, or_false] at hv
  rcases hv with rfl | rfl | rfl | rfl | rfl | rfl | rfl | rfl | rfl <;>
    constructor <;> simp only <;> omega

theorem boxCells_group {k : Nat} (hk : k < 9) : GroupCells (boxCells k) := by
  refine ⟨rfl, boxCells_bounds hk, ?_, ?_⟩
  · unfold boxCells
    refine List.Nodup.map_on ?_ ?_
    · intro a ha b hb hab
      rw [Prod.mk.injEq] at hab
      omega
    · refine List.Nodup.map_on ?_ (by decide)
      intro a _ b _ hab
      omega
  · intro p hp q hq
    have h1 := boxCells_box hk p hp
    have h2 := boxCells_box hk q hq
    exact Or.inr (Or.inr ⟨h1.1.trans h2.1.symm, h1.2.trans h2.2.symm⟩)

theorem groupFold_completion (cellsOf : Nat → List (Nat × Nat)) :
    ∀ (ks : List Nat), (∀ k ∈ ks, GroupCells (cellsOf k)) →
    ∀ {b h : Board}, Wf b → ∀ (acc : Board × List (Nat × Nat)),
    TrialInv b acc.1 acc.2 → Completion acc.1 h →
    Completion ((ks.foldl (fun acc k =>
        ((hiddenSingles acc.1 (cellsOf k)).1, acc.2 ++ (hiddenSingles acc.1 (cellsOf k)).2))
      acc).1) h := by
  intro ks
  induction ks with
  | nil => intro _ b h _ acc _ hc; exact hc
  | cons k ks ih =>
    intro hk b h hwf acc hinv hc
    rw [List.foldl_cons]
    have hgrp := hk k (List.mem_cons_self _ _)
    have hwfacc : Wf acc.1 := hinv.wf hwf
    have hstep := hiddenSingles_completion acc.1 hwfacc hgrp hc
    have hinvstep := hinv.trans (hiddenSingles_inv acc.1 (cellsOf k) hgrp.2.1).1
    exact ih (fun k' hk' => hk k' (List.mem_cons_of_mem _ hk')) hwf _ hinvstep hstep

end Sudoku

/-! ### The whole trial: completions preserved, empty cells strictly fewer -/

namespace Sudoku

theorem rule1_completion {b h : Board} (hwf : Wf b) (hc : Completion b h) (x y : Nat) :
    Completion (rule1 b x y).1 h :=
  scanCells_completion (rule1Cells x y) b hwf (rule1Cells_bounds x y) hc

theorem rule2_completion {b h : Board} (hwf : Wf b) (hc : Completion b h) (x y : Nat) :
    Completion (rule2 b x y).1 h := by
  have := groupFold_completion rowCells (List.range' y (9 - y))
    (fun k hk => rowCells_group (by have := List.mem_range'_1.mp hk; omega))
    hwf (b, []) (TrialInv.refl b) hc
  exact this

theorem rule3_completion {b h : Board} (hwf : Wf b) (hc : Completion b h) (x y : Nat) :
    Completion (rule3 b x y).1 h := by
  have := groupFold_completion colCells (List.range' x (9 - x))
    (fun k hk => colCells_group (by have := List.mem_range'_1.mp hk; omega))
    hwf (b, []) (TrialInv.refl b) hc
  exact this

theorem rule4_completion {b h : Board} (hwf : Wf b) (hc : Completion b h) (x y : Nat) :
    Completion (rule4 b x y).1 h := by
  have := groupFold_completion boxCells
    (List.range' ((y / 3) * 3 + x / 3) (9 - ((y / 3) * 3 + x / 3)))
    (fun k hk => boxCells_group (by have := List.mem_range'_1.mp hk; omega))
    hwf (b, []) (TrialInv.refl b) hc
  exact this

theorem trialRules_wf {b : Board} (hwf : Wf b) {x y : Nat} (hpivot : getCell b x y = 0) :
    Wf (trialRules b x y).1 :=
  (trialRules_inv b hpivot).wf hwf

theorem trialRules_completion {b h : Board} (hwf : Wf b) (hc : Completion b h) (x y : Nat) :
    Completion (trialRules b x y).1 h := by
  have h1 := rule1_completion hwf hc x y
  have hwf1 : Wf (rule1 b x y).1 := ((rule1_inv b x y).1).wf hwf
  have h2 := rule2_completion hwf1 h1 x y
  have hwf2 : Wf (rule2 (rule1 b x y).1 x y).1 :=
    ((rule2_inv (rule1 b x y).1 x y).1).wf hwf1
  have h3 := rule3_completion hwf2 h2 x y
  have hwf3 : Wf (rule3 (rule2 (rule1 b x y).1 x y).1 x y).1 :=
    ((rule3_inv (rule2 (rule1 b x y).1 x y).1 x y).1).wf hwf2
  exact rule4_completion hwf3 h3 x y

theorem trial_child_completion {b h : Board} (hwf : Wf b) (hc : Completion b h)
    {x y : Nat} (hx : x < 9) (hy : y < 9) (hpivot : getCell b x y = 0) :
    Completion (setCell (trialRules b x y).1 x y (getCell h x y)) h :=
  completion_setCell (trialRules_completion hwf hc x y) (trialRules_wf hwf hpivot) hx hy rfl

theorem trial_child_wf {b : Board} (hwf : Wf b) {x y c : Nat} (hc9 : c ≤ 9)
    (hpivot : getCell b x y = 0) :
    Wf (setCell (trialRules b x y).1 x y c) :=
  Wf_setCell (trialRules_wf hwf hpivot) hc9

theorem trial_child_extends {b : Board} {x y c : Nat} (hpivot : getCell b x y = 0) :
    Extends b (setCell (trialRules b x y).1 x y c) := by
  intro u v hu hv hnz
  have hne : ((u, v) : Nat × Nat) ≠ (x, y) := by
    intro hh
    have h1 : u = x := congrArg Prod.fst hh
    have h2 : v = y := congrArg Prod.snd hh
    rw [h1, h2, hpivot] at hnz
    exact hnz rfl
  rw [getCell_setCell_ne _ _ hne]
  exact (trialRules_inv b hpivot).toExtends u v hu hv hnz

theorem trial_child_decreases {b : Board} (hwf : Wf b) {x y c : Nat} (hx : x < 9) (hy : y < 9)
    (hpivot : getCell b x y = 0) (hc0 : c ≠ 0) :
    countZeros (setCell (trialRules b x y).1 x y c) < countZeros b := by
  have hinv := trialRules_inv b hpivot
  have hwft : Wf (trialRules b x y).1 := hinv.wf hwf
  refine countZeros_lt_of_pointwise
    (sameShape_trans hinv.shape (sameShape_setCell _ x y c)) ?_
    (u := x) (v := y) (by rw [Wf_row_len hwf hy]; exact hx) (by rw [hwf.1]; exact hy)
    hpivot ?_
  · intro u v hz
    rcases getCell_setCell_or (trialRules b x y).1 x y u v c with heq | heq
    · exact hinv.zback u v (heq ▸ hz)
    · rw [heq] at hz
      exact absurd hz hc0
  · have hself : getCell (setCell (trialRules b x y).1 x y c) x y = c := by
      simpa using getCell_setCell_self_wf hwft (p := (x, y)) (w := c) ⟨hx, hy⟩
    rw [hself]
    exact hc0

end Sudoku

/-! ### Soundness and completeness of the search -/

namespace Sudoku

theorem mem_foldl_append {α β : Type} (f : β → List α) :
    ∀ (cs : List β) (acc : List α) (s : α),
    (s ∈ cs.foldl (fun a c => a ++ f c) acc ↔ s ∈ acc ∨ ∃ c ∈ cs, s ∈ f c) := by
  intro cs
  induction cs with
  | nil =>
    intro acc s
    simp
  | cons c cs ih =>
    intro acc s
    rw [List.foldl_cons, ih, List.mem_append]
    constructor
    · rintro ((hs | hs) | ⟨d, hd, hs⟩)
      · exact Or.inl hs
      · exact Or.inr ⟨c, List.mem_cons_self _ _, hs⟩
      · exact Or.inr ⟨d, List.mem_cons_of_mem _ hd, hs⟩
    · rintro (hs | ⟨d, hd, hs⟩)
      · exact Or.inl (Or.inl hs)
      · rcases List.mem_cons.mp hd with rfl | hm
        · exact Or.inl (Or.inr hs)
        · exact Or.inr ⟨d, hm, hs⟩

theorem backtrackSols_sound : ∀ (fuel : Nat) (b : Board), Wf b →
    ∀ s ∈ backtrackSols fuel b, Wf s ∧ solved s = true ∧ Extends b s := by
  intro fuel
  induction fuel with
  | zero =>
    intro b _ s hs
    exact absurd hs (List.not_mem_nil _)
  | succ fuel ih =>
    intro b hwf s hs
    rw [backtrackSols_succ] at hs
    by_cases h1 : okay b = false
    · rw [if_pos h1] at hs
      exact absurd hs (List.not_mem_nil _)
    rw [if_neg h1] at hs
    by_cases h2 : solved b = true
    · rw [if_pos h2] at hs
      rw [List.mem_singleton.mp hs]
      exact ⟨hwf, h2, extends_refl b⟩
    rw [if_neg h2] at hs
    by_cases h3 : (nextOpenCell b).1 = -1 ∨ (nextOpenCell b).2 = -1
    · rw [if_pos h3] at hs
      exact absurd hs (List.not_mem_nil _)
    rw [if_neg h3, mem_foldl_append] at hs
    rcases hs with hs | ⟨c, hcmem, hs⟩
    · exact absurd hs (List.not_mem_nil _)
    · obtain ⟨hylen, hxlen, hpivot⟩ := nextOpenCell_found h3
      have hchild := ih (setCell (trialRules b (nextOpenCell b).1.toNat
          (nextOpenCell b).2.toNat).1 (nextOpenCell b).1.toNat (nextOpenCell b).2.toNat c)
        (trial_child_wf hwf (candidates_mem_bounds hcmem).2 hpivot) s hs
      exact ⟨hchild.1, hchild.2.1,
        extends_trans (trial_child_extends hpivot) hchild.2.2⟩

theorem backtrackSols_complete : ∀ (fuel : Nat) (b : Board), Wf b →
    countZeros b + 1 ≤ fuel → (∃ h, Completion b h) → backtrackSols fuel b ≠ [] := by
  intro fuel
  induction fuel with
  | zero =>
    intro b _ hfuel _
    omega
  | succ fuel ih =>
    rintro b hwf hfuel ⟨h, hc⟩
    rw [backtrackSols_succ]
    have hok : okay b = true := okay_of_completion hwf hc
    rw [if_neg (by rw [hok]; simp)]
    by_cases h2 : solved b = true
    · rw [if_pos h2]
      simp
    · rw [if_neg h2]
      have hzero : ∃ x y, x < 9 ∧ y < 9 ∧ getCell b x y = 0 := by
        by_contra hno
        push_neg at hno
        exact h2 ((solved_iff hwf).mpr ⟨hok, fun x y hx hy => hno x y hx hy⟩)
      obtain ⟨x0, y0, hx0, hy0, hcell0⟩ := hzero
      have hguard : ¬((nextOpenCell b).1 = -1 ∨ (nextOpenCell b).2 = -1) := by
        intro hg
        have hcontains : (b.getD y0 []).contains 0 = true := by
          rw [List.elem_iff]
          exact (mem_row_iff hwf hy0).mpr ⟨x0, hx0, hcell0⟩
        rcases findZeroRow_cases (rows b) 0 with hneg | hnonneg
        · have hnone := findZeroRow_neg (rows b) 0 hneg (b.getD y0 [])
            (getD_mem [] (by show y0 < b.length; rw [hwf.1]; exact hy0))
          rw [hnone] at hcontains
          cases hcontains
        · rcases hg with hg1 | hg2
          · have hx : (nextOpenCell b).1 =
                ((((rows b).getD (findZeroRow 0 (rows b)).toNat []).indexOf 0 : Nat) : Int) := by
              show (if findZeroRow 0 (rows b) ≥ 0 then _ else _) = _
              rw [if_pos hnonneg]
            rw [hx] at hg1
            omega
          · have hy : (nextOpenCell b).2 = findZeroRow 0 (rows b) := rfl
            rw [hy] at hg2
            rw [hg2] at hnonneg
            omega
      rw [if_neg hguard]
      obtain ⟨hylen, hxlen, hpivot⟩ := nextOpenCell_found hguard
      have hy9 : (nextOpenCell b).2.toNat < 9 := by rw [hwf.1] at hylen; exact hylen
      have hx9 : (nextOpenCell b).1.toNat < 9 := by
        rw [Wf_row_len hwf hy9] at hxlen
        exact hxlen
      have hcstar : getCell h (nextOpenCell b).1.toNat (nextOpenCell b).2.toNat ∈
          candidates b (nextOpenCell b).1.toNat (nextOpenCell b).2.toNat :=
        completion_mem_candidates hwf hc hx9 hy9 hpivot
      have hdec := trial_child_decreases hwf (c := getCell h (nextOpenCell b).1.toNat
          (nextOpenCell b).2.toNat) hx9 hy9 hpivot (candidates_mem_ne_zero hcstar)
      have hchild := ih (setCell (trialRules b (nextOpenCell b).1.toNat
          (nextOpenCell b).2.toNat).1 (nextOpenCell b).1.toNat (nextOpenCell b).2.toNat
          (getCell h (nextOpenCell b).1.toNat (nextOpenCell b).2.toNat))
        (trial_child_wf hwf (candidates_mem_bounds hcstar).2 hpivot)
        (by omega)
        ⟨h, trial_child_completion hwf hc hx9 hy9 hpivot⟩
      obtain ⟨s, hsmem⟩ := List.exists_mem_of_ne_nil _ hchild
      intro hempty
      have hfold : s ∈ (candidates b (nextOpenCell b).1.toNat (nextOpenCell b).2.toNat).foldl
          (fun acc c => acc ++ backtrackSols fuel
            (setCell (trialRules b (nextOpenCell b).1.toNat (nextOpenCell b).2.toNat).1
              (nextOpenCell b).1.toNat (nextOpenCell b).2.toNat c)) [] :=
        (mem_foldl_append _ _ _ _).mpr (Or.inr ⟨_, hcstar, hsmem⟩)
      rw [hempty] at hfold
      exact absurd hfold (List.not_mem_nil _)

theorem solve_characterization {b : Board} (hwf : Wf b) :
    (solve b = none ↔ (okay b = false ∨ ¬∃ h, Completion b h)) ∧
    ∀ sols, solve b = some sols → sols ≠ [] ∧ ∀ s ∈ sols, Completion b s := by
  by_cases h1 : okay b = false
  · rw [solve_eq_sols, if_pos h1]
    exact ⟨⟨fun _ => Or.inl h1, fun _ => rfl⟩, fun sols hcon => by cases hcon⟩
  · rw [solve_eq_sols, if_neg h1]
    by_cases hemp : (backtrackSols (countZeros b + 1) b).isEmpty = true
    · rw [if_pos hemp]
      refine ⟨⟨fun _ => ?_, fun _ => rfl⟩, fun sols hcon => by cases hcon⟩
      right
      rintro ⟨h, hc⟩
      have := backtrackSols_complete (countZeros b + 1) b hwf (le_refl _) ⟨h, hc⟩
      rw [List.isEmpty_iff] at hemp
      exact this hemp
    · rw [if_neg hemp]
      have hne : backtrackSols (countZeros b + 1) b ≠ [] := by
        intro hh
        rw [hh] at hemp
        exact hemp rfl
      refine ⟨⟨fun hcon => absurd hcon (Option.some_ne_none _), fun hcon => ?_⟩, ?_⟩
      · rcases hcon with hfalse | hnoc
        · exact absurd hfalse h1
        · obtain ⟨s, hsmem⟩ := List.exists_mem_of_ne_nil _ hne
          obtain ⟨hwfs, hsol, hext⟩ := backtrackSols_sound (countZeros b + 1) b hwf s hsmem
          exact absurd ⟨s, hwfs, hsol, hext⟩ hnoc
      · intro sols hsols
        have heq : backtrackSols (countZeros b + 1) b = sols := by
          injection hsols
        rw [← heq]
        refine ⟨hne, ?_⟩
        intro s hsmem
        obtain ⟨hwfs, hsol, hext⟩ := backtrackSols_sound (countZeros b + 1) b hwf s hsmem
        exact ⟨hwfs, hsol, hext⟩

end Sudoku

/-! ### The hidden-singles pass matches the specification's set description -/

namespace Sudoku

theorem candidates_nodup (b : Board) (x y : Nat) : (candidates b x y).Nodup := by
  unfold candidates
  split
  · exact List.nodup_nil
  · refine List.Nodup.filter _ (List.Nodup.filter _ (List.Nodup.filter _ ?_))
    exact List.Nodup.map (fun a b h => by omega) (List.nodup_range 9)

theorem candidates_sorted (b : Board) (x y : Nat) : (candidates b x y).Sorted (· < ·) := by
  unfold candidates
  split
  · exact List.sorted_nil
  · refine List.Pairwise.filter _ (List.Pairwise.filter _ (List.Pairwise.filter _ ?_))
    refine List.pairwise_map.mpr ?_
    refine (List.pairwise_lt_range 9).imp ?_
    intro a b h
    omega

theorem difference_sublist : ∀ (arrays : List (List Nat)) (a : List Nat),
    (difference a arrays).Sublist a := by
  intro arrays
  induction arrays with
  | nil => intro a; exact List.Sublist.refl a
  | cons bs rest ih =>
    intro a
    have hstep : difference a (bs :: rest) =
        difference (a.filter (fun x => !(bs.contains x))) rest := rfl
    rw [hstep]
    exact (ih _).trans (List.filter_sublist a)

theorem difference_nodup {a : List Nat} (arrays : List (List Nat)) (h : a.Nodup) :
    (difference a arrays).Nodup :=
  (difference_sublist arrays a).nodup h

theorem allowedOf_length (b : Board) (cells : List (Nat × Nat)) :
    (allowedOf b cells).length = cells.length := by
  unfold allowedOf
  rw [List.length_map]

theorem diffsOf_nodup (b : Board) (cells : List (Nat × Nat)) {j : Nat}
    (hj : j < cells.length) : ((diffsOf b cells).getD j []).Nodup := by
  rw [diffsOf_getD b cells hj]
  refine difference_nodup _ ?_
  rw [allowedOf_getD b cells hj]
  exact candidates_nodup _ _ _

theorem mem_foldl_union (f : Nat → Finset Nat) :
    ∀ (l : List Nat) (init : Finset Nat) (v : Nat),
      v ∈ l.foldl (fun acc k => acc ∪ f k) init ↔ v ∈ init ∨ ∃ k ∈ l, v ∈ f k := by
  intro l
  induction l with
  | nil => intro init v; simp
  | cons a t ih =>
    intro init v
    rw [List.foldl_cons, ih]
    simp only [Finset.mem_union, List.mem_cons]
    constructor
    · rintro ((h | h) | ⟨k, hk, hv⟩)
      · exact Or.inl h
      · exact Or.inr ⟨a, Or.inl rfl, h⟩
      · exact Or.inr ⟨k, Or.inr hk, hv⟩
    · rintro (h | ⟨k, (rfl | hk), hv⟩)
      · exact Or.inl (Or.inl h)
      · exact Or.inl (Or.inr hv)
      · exact Or.inr ⟨k, hk, hv⟩

theorem mem_unionOthers_iff (sets : List (Finset Nat)) (j v : Nat) :
    v ∈ unionOthers sets j ↔ ∃ k, k < sets.length ∧ k ≠ j ∧ v ∈ sets.getD k ∅ := by
  unfold unionOthers
  rw [mem_foldl_union]
  simp only [Finset.not_mem_empty, false_or, List.mem_filter, List.mem_range,
    decide_eq_true_eq]
  constructor
  · rintro ⟨k, ⟨hk, hkj⟩, hv⟩
    exact ⟨k, hk, hkj, hv⟩
  · rintro ⟨k, hk, hkj, hv⟩
    exact ⟨k, ⟨hk, hkj⟩, hv⟩

theorem setsOf_eq_map (b : Board) (cells : List (Nat × Nat)) :
    setsOf b cells = (allowedOf b cells).map List.toFinset := by
  unfold setsOf allowedOf
  rw [List.map_map]
  rfl

theorem setsOf_length (b : Board) (cells : List (Nat × Nat)) :
    (setsOf b cells).length = cells.length := by
  unfold setsOf
  rw [List.length_map]

theorem setsOf_getD (b : Board) (cells : List (Nat × Nat)) {j : Nat}
    (hj : j < cells.length) :
    (setsOf b cells).getD j ∅ = ((allowedOf b cells).getD j []).toFinset := by
  rw [setsOf_eq_map]
  exact getD_map _ _ [] (by rw [allowedOf_length]; exact hj)

theorem specDiff_eq_diffs (b : Board) (cells : List (Nat × Nat)) {j : Nat}
    (hj : j < cells.length) :
    specDiff b cells j = ((diffsOf b cells).getD j []).toFinset := by
  ext v
  unfold specDiff
  rw [Finset.mem_sdiff, mem_unionOthers_iff, setsOf_getD b cells hj,
    List.mem_toFinset, diffsOf_getD b cells hj, List.mem_toFinset, mem_difference_iff]
  constructor
  · rintro ⟨hv, hno⟩
    refine ⟨hv, ?_⟩
    intro bs hbs
    obtain ⟨k, hk, hkj, hbs'⟩ := List.mem_eraseIdx_iff_getElem.mp hbs
    intro hvbs
    have hk' : k < cells.length := by rw [← allowedOf_length b cells]; exact hk
    refine hno ⟨k, ?_, hkj, ?_⟩
    · rw [setsOf_length]; exact hk'
    · rw [setsOf_getD b cells hk', List.mem_toFinset, List.getD_eq_getElem _ _ hk, hbs']
      exact hvbs
  · rintro ⟨hv, hall⟩
    refine ⟨hv, ?_⟩
    rintro ⟨k, hk, hkj, hvk⟩
    rw [setsOf_length] at hk
    rw [setsOf_getD b cells hk, List.mem_toFinset] at hvk
    exact hall _ (getD_mem_eraseIdx [] (by rw [allowedOf_length]; exact hk) hkj) hvk

theorem hiddenSingles_eq_spec (b : Board) (cells : List (Nat × Nat)) :
    hiddenSinglesSpec b cells = hiddenSingles b cells := by
  unfold hiddenSinglesSpec hiddenSingles
  refine List.foldl_ext _ _ _ ?_
  intro acc j hj
  rw [List.mem_range] at hj
  by_cases h1 : ((diffsOf b cells).getD j []).length = 1
  · obtain ⟨v, hv⟩ := List.length_eq_one.mp h1
    have hset : specDiff b cells j = {v} := by
      rw [specDiff_eq_diffs b cells hj, hv]
      simp
    rw [if_pos h1, if_pos (by rw [hset]; exact Finset.card_singleton v), hset, hv,
      Finset.sort_singleton]
  · have hcard : ¬(specDiff b cells j).card = 1 := by
      rw [specDiff_eq_diffs b cells hj,
        List.toFinset_card_of_nodup (diffsOf_nodup b cells hj)]
      exact h1
    rw [if_neg hcard, if_neg h1]

theorem rule2_eq_spec (b : Board) (x y : Nat) : rule2Spec b x y = rule2 b x y := by
  unfold rule2Spec rule2
  refine List.foldl_ext _ _ _ ?_
  intro acc i _
  rw [hiddenSingles_eq_spec]

/-! ### The naked-singles scan matches the specification's set description -/

theorem scanSpec_eq_scanCells : ∀ (cells : List (Nat × Nat)) (b : Board),
    scanSpec cells b = scanCells cells b := by
  intro cells
  induction cells with
  | nil => intro b; rfl
  | cons p rest ih =>
    intro b
    obtain ⟨j, i⟩ := p
    have hs : scanSpec ((j, i) :: rest) b =
        (if ((candidates b j i).toFinset).card = 1 then
          ((scanSpec rest (setCell b j i
              ((((candidates b j i).toFinset).sort (· ≤ ·)).headD 0))).1,
            (j, i) :: (scanSpec rest (setCell b j i
              ((((candidates b j i).toFinset).sort (· ≤ ·)).headD 0))).2)
        else scanSpec rest b) := rfl
    have hc : scanCells ((j, i) :: rest) b =
        (if (candidates b j i).length = 1 then
          ((scanCells rest (setCell b j i ((candidates b j i).headD 0))).1,
            (j, i) :: (scanCells rest (setCell b j i ((candidates b j i).headD 0))).2)
        else scanCells rest b) := rfl
    by_cases h1 : (candidates b j i).length = 1
    · obtain ⟨v, hv⟩ := List.length_eq_one.mp h1
      have hcard : ((candidates b j i).toFinset).card = 1 := by
        rw [List.toFinset_card_of_nodup (candidates_nodup b j i)]
        exact h1
      rw [hs, hc, if_pos h1, if_pos hcard, hv]
      rw [show (([v].toFinset).sort (· ≤ ·)) = [v] from by simp [Finset.sort_singleton]]
      rw [ih]
    · have hcard : ¬((candidates b j i).toFinset).card = 1 := by
        rw [List.toFinset_card_of_nodup (candidates_nodup b j i)]
        exact h1
      rw [hs, hc, if_neg h1, if_neg hcard, ih]

/-- Rule 1's double loop `for (i = y; i < 9; i++) for (j = x + 1; j < 9; j++)`
visits exactly the row-major cells with `i ≥ y` and `j > x` (in every row, not
just row `y`). -/
theorem rule1Cells_eq_amended : ∀ x, x < 9 → ∀ y, y < 9 →
    rule1Cells x y = rule1AmendedCells x y := by decide

/-! ### The search returns every completion -/

theorem extends_iff (g h : Board) : Extends g h ↔
    ∀ x, x < 9 → ∀ y, y < 9 →
      (getCell g x y = 0 ∨ getCell h x y = getCell g x y) := by
  unfold Extends
  constructor
  · intro H x hx y hy
    by_cases h0 : getCell g x y = 0
    · exact Or.inl h0
    · exact Or.inr (H x y hx hy h0)
  · intro H x y hx hy h0
    rcases H x hx y hy with h | h
    · exact absurd h h0
    · exact h

theorem Wf_sameShape {b h : Board} (hwf : Wf b) (hwh : Wf h) : sameShape b h := by
  refine ⟨by rw [hwf.1, hwh.1], ?_⟩
  intro i
  by_cases hi : i < 9
  · rw [Wf_row_len hwf hi, Wf_row_len hwh hi]
  · rw [List.getD_eq_default _ _ (by rw [hwf.1]; omega),
      List.getD_eq_default _ _ (by rw [hwh.1]; omega)]

theorem completion_eq_of_solved {b h : Board} (hwf : Wf b) (hsol : solved b = true)
    (hc : Completion b h) : h = b := by
  obtain ⟨hwh, _, hext⟩ := hc
  refine board_ext (Wf_sameShape hwh hwf) ?_
  intro u v
  by_cases huv : u < 9 ∧ v < 9
  · have hnz : getCell b u v ≠ 0 := ((solved_iff hwf).mp hsol).2 u v huv.1 huv.2
    exact hext u v huv.1 huv.2 hnz
  · have h9 : 9 ≤ u ∨ 9 ≤ v := by omega
    rw [getCell_oob h hwh h9, getCell_oob b hwf h9]

theorem backtrackSols_complete_mem : ∀ (fuel : Nat) (b : Board), Wf b →
    countZeros b + 1 ≤ fuel → ∀ h, Completion b h → h ∈ backtrackSols fuel b := by
  intro fuel
  induction fuel with
  | zero =>
    intro b _ hfuel _ _
    omega
  | succ fuel ih =>
    intro b hwf hfuel h hc
    rw [backtrackSols_succ]
    have hok : okay b = true := okay_of_completion hwf hc
    rw [if_neg (by rw [hok]; simp)]
    by_cases h2 : solved b = true
    · rw [if_pos h2]
      rw [completion_eq_of_solved hwf h2 hc]
      exact List.mem_singleton_self b
    · rw [if_neg h2]
      have hzero : ∃ x y, x < 9 ∧ y < 9 ∧ getCell b x y = 0 := by
        by_contra hno
        push_neg at hno
        exact h2 ((solved_iff hwf).mpr ⟨hok, fun x y hx hy => hno x y hx hy⟩)
      obtain ⟨x0, y0, hx0, hy0, hcell0⟩ := hzero
      have hguard : ¬((nextOpenCell b).1 = -1 ∨ (nextOpenCell b).2 = -1) := by
        intro hg
        have hcontains : (b.getD y0 []).contains 0 = true := by
          rw [List.elem_iff]
          exact (mem_row_iff hwf hy0).mpr ⟨x0, hx0, hcell0⟩
        rcases findZeroRow_cases (rows b) 0 with hneg | hnonneg
        · have hnone := findZeroRow_neg (rows b) 0 hneg (b.getD y0 [])
            (getD_mem [] (by show y0 < b.length; rw [hwf.1]; exact hy0))
          rw [hnone] at hcontains
          cases hcontains
        · rcases hg with hg1 | hg2
          · have hx : (nextOpenCell b).1 =
                ((((rows b).getD (findZeroRow 0 (rows b)).toNat []).indexOf 0 : Nat) : Int) := by
              show (if findZeroRow 0 (rows b) ≥ 0 then _ else _) = _
              rw [if_pos hnonneg]
            rw [hx] at hg1
            omega
          · have hy : (nextOpenCell b).2 = findZeroRow 0 (rows b) := rfl
            rw [hy] at hg2
            rw [hg2] at hnonneg
            omega
      rw [if_neg hguard]
      obtain ⟨hylen, hxlen, hpivot⟩ := nextOpenCell_found hguard
      have hy9 : (nextOpenCell b).2.toNat < 9 := by rw [hwf.1] at hylen; exact hylen
      have hx9 : (nextOpenCell b).1.toNat < 9 := by
        rw [Wf_row_len hwf hy9] at hxlen
        exact hxlen
      have hcstar : getCell h (nextOpenCell b).1.toNat (nextOpenCell b).2.toNat ∈
          candidates b (nextOpenCell b).1.toNat (nextOpenCell b).2.toNat :=
        completion_mem_candidates hwf hc hx9 hy9 hpivot
      have hdec := trial_child_decreases hwf (c := getCell h (nextOpenCell b).1.toNat
          (nextOpenCell b).2.toNat) hx9 hy9 hpivot (candidates_mem_ne_zero hcstar)
      have hchild := ih (setCell (trialRules b (nextOpenCell b).1.toNat
          (nextOpenCell b).2.toNat).1 (nextOpenCell b).1.toNat (nextOpenCell b).2.toNat
          (getCell h (nextOpenCell b).1.toNat (nextOpenCell b).2.toNat))
        (trial_child_wf hwf (candidates_mem_bounds hcstar).2 hpivot)
        (by omega)
        h (trial_child_completion hwf hc hx9 hy9 hpivot)
      exact (mem_foldl_append _ _ _ _).mpr (Or.inr ⟨_, hcstar, hchild⟩)

/-! ### Scenario B's grid has at least two known completions -/

theorem gB_completion_sB1 : Completion gB sB1 :=
  ⟨by decide, by decide, (extends_iff gB sB1).mpr (by decide)⟩

theorem gB_completion_sB2 : Completion gB sB2 :=
  ⟨by decide, by decide, (extends_iff gB sB2).mpr (by decide)⟩

theorem solve_gB_eq : solve gB = some (backtrackSols (countZeros gB + 1) gB) := by
  have hne : backtrackSols (countZeros gB + 1) gB ≠ [] :=
    backtrackSols_complete (countZeros gB + 1) gB (by decide) (le_refl _)
      ⟨sB1, gB_completion_sB1⟩
  have hemp : ¬(backtrackSols (countZeros gB + 1) gB).isEmpty = true := by
    intro hh
    rw [List.isEmpty_iff] at hh
    exact hne hh
  rw [solve_eq_sols, if_neg (show ¬okay gB = false by decide), if_neg hemp]

end Sudoku

/-! ### The claims -/

namespace Sudoku

/-- C1: for every grid state `b` the search can reach, every pivot `(x, y)`
the search branches on (an empty cell of `b`) and every candidate trial, after
the trial's recursive call returns and its undo log is drained, every cell of
the undo log (the pivot plus the rule fills) reads back 0 and every other cell
holds exactly its pre-trial value. -/
theorem trial_undo_restores (fuel : Nat) (b : Board) (x y c : Nat)
    (hpivot : getCell b x y = 0) :
    (∀ p ∈ (trialRules b x y).2,
      getCell (drain (backtrack fuel (setCell (trialRules b x y).1 x y c)).1
        (trialRules b x y).2) p.1 p.2 = 0) ∧
    (∀ p : Nat × Nat, p ∉ (trialRules b x y).2 →
      getCell (drain (backtrack fuel (setCell (trialRules b x y).1 x y c)).1
        (trialRules b x y).2) p.1 p.2 = getCell b p.1 p.2) := by
  have hres : drain (backtrack fuel (setCell (trialRules b x y).1 x y c)).1
      (trialRules b x y).2 = b := by
    rw [backtrack_fst]
    exact trial_restore b c hpivot
  refine ⟨?_, ?_⟩
  · intro p hp
    rw [hres]
    exact (trialRules_inv b hpivot).wasZero p hp
  · intro p hp
    rw [hres]

theorem trial_undo_restores_witness :
    (∀ p ∈ (trialRules gOneHole 0 0).2,
      getCell (drain (backtrack 1 (setCell (trialRules gOneHole 0 0).1 0 0 5)).1
        (trialRules gOneHole 0 0).2) p.1 p.2 = 0) ∧
    (∀ p : Nat × Nat, p ∉ (trialRules gOneHole 0 0).2 →
      getCell (drain (backtrack 1 (setCell (trialRules gOneHole 0 0).1 0 0 5)).1
        (trialRules gOneHole 0 0).2) p.1 p.2 = getCell gOneHole p.1 p.2) :=
  trial_undo_restores 1 gOneHole 0 0 5 (by decide)

/-- C2: a `solve()` call never changes the caller-visible grid: the board the
caller reads after the call (the second component of `solveCall`) is the board
it held before, cell for cell. -/
theorem solve_frame_on_caller (b : Board) :
    (solveCall b).2 = b ∧
    ∀ x y : Nat, getCell (solveCall b).2 x y = getCell b x y := by
  have h2 : (solveCall b).2 = b := by
    unfold solveCall
    split
    · rfl
    · split
      · rfl
      · rfl
  exact ⟨h2, fun x y => by rw [h2]⟩

/-- C3 (amended): for every grid and in-bounds pivot `(x, y)`, Rule 1 is the
forward naked-singles scan the specification describes, but over the cells
`(j, i)` with `i ≥ y` and `j > x` in every scanned row — not over all nine
columns of rows `i > y`. -/
theorem rule1_scan_amended (b : Board) {x y : Nat} (hx : x < 9) (hy : y < 9) :
    rule1 b x y = scanSpec (rule1AmendedCells x y) b := by
  rw [scanSpec_eq_scanCells]
  show scanCells (rule1Cells x y) b = _
  rw [rule1Cells_eq_amended x hx y hy]

theorem rule1_scan_amended_witness :
    rule1 gOneHole 0 0 = scanSpec (rule1AmendedCells 0 0) gOneHole :=
  rule1_scan_amended gOneHole (by decide) (by decide)

/-- C3 counterexample: on `gLeftSingle` with pivot `(5, 0)` the claimed scan
region (all nine columns of every row below the pivot row) would fill the
naked single at `(0, 1)`, but the actual Rule 1 never scans column 0 and fills
nothing, so the claimed and actual scans disagree. -/
theorem rule1_scan_region_cex :
    (rule1 gLeftSingle 5 0).2 = [] ∧
    (scanSpec (rule1ClaimCells 5 0) gLeftSingle).2 = [(0, 1)] ∧
    (rule1 gLeftSingle 5 0).1 ≠ (scanSpec (rule1ClaimCells 5 0) gLeftSingle).1 := by
  rw [scanSpec_eq_scanCells]
  refine ⟨by decide, by decide, by decide⟩

/-- C4 (amended): Scenario B's grid is valid and unsolved, and `solve()`
returns a non-empty list of solution grids whose members are exactly the
completions of the start grid — of which there are several, not exactly
one. -/
theorem scenarioB_characterized :
    okay gB = true ∧ solved gB = false ∧
    ∃ sols, solve gB = some sols ∧ sols ≠ [] ∧ ∀ s, s ∈ sols ↔ Completion gB s := by
  have hwf : Wf gB := by decide
  refine ⟨by decide, by decide, backtrackSols (countZeros gB + 1) gB, solve_gB_eq, ?_, ?_⟩
  · intro hh
    have hm := backtrackSols_complete_mem (countZeros gB + 1) gB hwf (le_refl _)
      sB1 gB_completion_sB1
    rw [hh] at hm
    exact absurd hm (List.not_mem_nil _)
  · intro s
    constructor
    · intro hs
      exact backtrackSols_sound (countZeros gB + 1) gB hwf s hs
    · intro hcs
      exact backtrackSols_complete_mem (countZeros gB + 1) gB hwf (le_refl _) s hcs

/-- C4 counterexample: on Scenario B's grid, `solve()` returns a list of
solution grids — it contains the two distinct completions `sB1` and `sB2` —
so the returned list does not contain exactly one solution grid. -/
theorem scenarioB_not_one_solution :
    okay gB = true ∧ solved gB = false ∧ (∃ sols, solve gB = some sols) ∧
    ∀ sols, solve gB = some sols → sols.length ≠ 1 := by
  have hwf : Wf gB := by decide
  have hm1 : sB1 ∈ backtrackSols (countZeros gB + 1) gB :=
    backtrackSols_complete_mem (countZeros gB + 1) gB hwf (le_refl _) sB1 gB_completion_sB1
  have hm2 : sB2 ∈ backtrackSols (countZeros gB + 1) gB :=
    backtrackSols_complete_mem (countZeros gB + 1) gB hwf (le_refl _) sB2 gB_completion_sB2
  refine ⟨by decide, by decide, ⟨_, solve_gB_eq⟩, ?_⟩
  intro sols hsols hlen
  rw [solve_gB_eq] at hsols
  injection hsols with heq
  rw [← heq] at hlen
  obtain ⟨a, ha⟩ := List.length_eq_one.mp hlen
  rw [ha] at hm1 hm2
  have h1 := List.mem_singleton.mp hm1
  have h2 := List.mem_singleton.mp hm2
  exact absurd (h1.trans h2.symm) (by decide)

/-- C5 (amended): each of the four rules is a deterministic function of the
grid and the pivot, and each is monotone per call: cells outside its fill log
are untouched, every logged cell was empty before the call, and (on a
well-formed grid) every logged cell is nonzero afterwards. Idempotence fails:
see the counterexample. -/
theorem rules_deterministic_monotone (b : Board) (x y : Nat) :
    ((∀ p : Nat × Nat, p ∉ (rule1 b x y).2 →
        getCell (rule1 b x y).1 p.1 p.2 = getCell b p.1 p.2) ∧
      (∀ p ∈ (rule1 b x y).2, getCell b p.1 p.2 = 0) ∧
      (Wf b → ∀ p ∈ (rule1 b x y).2, getCell (rule1 b x y).1 p.1 p.2 ≠ 0)) ∧
    ((∀ p : Nat × Nat, p ∉ (rule2 b x y).2 →
        getCell (rule2 b x y).1 p.1 p.2 = getCell b p.1 p.2) ∧
      (∀ p ∈ (rule2 b x y).2, getCell b p.1 p.2 = 0) ∧
      (Wf b → ∀ p ∈ (rule2 b x y).2, getCell (rule2 b x y).1 p.1 p.2 ≠ 0)) ∧
    ((∀ p : Nat × Nat, p ∉ (rule3 b x y).2 →
        getCell (rule3 b x y).1 p.1 p.2 = getCell b p.1 p.2) ∧
      (∀ p ∈ (rule3 b x y).2, getCell b p.1 p.2 = 0) ∧
      (Wf b → ∀ p ∈ (rule3 b x y).2, getCell (rule3 b x y).1 p.1 p.2 ≠ 0)) ∧
    ((∀ p : Nat × Nat, p ∉ (rule4 b x y).2 →
        getCell (rule4 b x y).1 p.1 p.2 = getCell b p.1 p.2) ∧
      (∀ p ∈ (rule4 b x y).2, getCell b p.1 p.2 = 0) ∧
      (Wf b → ∀ p ∈ (rule4 b x y).2, getCell (rule4 b x y).1 p.1 p.2 ≠ 0)) :=
  ⟨⟨(rule1_inv b x y).1.frame, (rule1_inv b x y).1.wasZero, (rule1_inv b x y).2⟩,
   ⟨(rule2_inv b x y).1.frame, (rule2_inv b x y).1.wasZero, (rule2_inv b x y).2⟩,
   ⟨(rule3_inv b x y).1.frame, (rule3_inv b x y).1.wasZero, (rule3_inv b x y).2⟩,
   ⟨(rule4_inv b x y).1.frame, (rule4_inv b x y).1.wasZero, (rule4_inv b x y).2⟩⟩

/-- C5 counterexample: Rule 1 is not idempotent per call. On `gTwoPass` with
pivot `(0, 0)` a first run fills `(2, 0)` and `(1, 8)`; an immediate second
run with the same pivot fills the further cell `(1, 0)` and changes the grid
again. -/
theorem rule1_not_idempotent_cex :
    (rule1 gTwoPass 0 0).2 = [(2, 0), (1, 8)] ∧
    (rule1 (rule1 gTwoPass 0 0).1 0 0).2 = [(1, 0)] ∧
    (rule1 (rule1 gTwoPass 0 0).1 0 0).1 ≠ (rule1 gTwoPass 0 0).1 := by
  refine ⟨by decide, by decide, by decide⟩

/-- C6: Rule 2 is exactly the specification's description: for each row
`i ≥ y` it computes the candidate set of every cell of the row, diffs each
cell's set against the union of all the other cells' sets, and exactly when
that difference has one member assigns it to the cell. -/
theorem rule2_matches_spec (b : Board) (x y : Nat) : rule2 b x y = rule2Spec b x y :=
  (rule2_eq_spec b x y).symm

/-- C7: for a well-formed grid and in-bounds `(x, y)`, `candidates` returns
the empty list on a filled cell and otherwise exactly the values of 1..9
appearing in neither row `y`, column `x`, nor the containing box — listed in
ascending order. -/
theorem candidates_characterization {b : Board} (hwf : Wf b) {x y : Nat}
    (hx : x < 9) (hy : y < 9) :
    candidates b x y = candidatesSpec b x y ∧ (candidates b x y).Sorted (· < ·) :=
  ⟨candidates_eq_spec hwf hx hy, candidates_sorted b x y⟩

theorem candidates_characterization_witness :
    candidates gOneHole 0 0 = candidatesSpec gOneHole 0 0 ∧
    (candidates gOneHole 0 0).Sorted (· < ·) :=
  candidates_characterization (by decide) (by decide) (by decide)

/-- C8: on every well-formed grid the (total, exception-free) `solve` returns
`none` exactly when the grid is already invalid or no completion of its empty
cells exists, and any returned list is non-empty and holds only completions
(solved, well-formed grids extending the start). -/
theorem solve_result_characterization {b : Board} (hwf : Wf b) :
    (solve b = none ↔ okay b = false ∨ ¬∃ h, Completion b h) ∧
    ∀ sols, solve b = some sols → sols ≠ [] ∧ ∀ s ∈ sols, Completion b s :=
  solve_characterization hwf

theorem solve_result_characterization_witness :
    (solve gOneHole = none ↔ okay gOneHole = false ∨ ¬∃ h, Completion gOneHole h) ∧
    ∀ sols, solve gOneHole = some sols → sols ≠ [] ∧
      ∀ s ∈ sols, Completion gOneHole s :=
  solve_result_characterization (by decide)

/-- C9: `get`, `set`, `delete` and `candidates` fail with the out-of-bounds
error whenever `x` or `y` is outside `[0, 8]`; past that guard `set` fails
with the invalid-value error whenever the value is outside `[0, 9]`; and no
out-of-range access or write ever returns `ok`. -/
theorem accessor_bounds_checked (b : Board) (x y v : Int) :
    ((x < 0 ∨ x > 8 ∨ y < 0 ∨ y > 8) →
      getE b x y = .error .outOfBounds ∧ setE b x y v = .error .outOfBounds ∧
      deleteE b x y = .error .outOfBounds ∧ candidatesE b x y = .error .outOfBounds) ∧
    (¬(x < 0 ∨ x > 8 ∨ y < 0 ∨ y > 8) → (v < 0 ∨ v > 9) →
      setE b x y v = .error .invalidValue) ∧
    (∀ w, getE b x y = .ok w → ¬(x < 0 ∨ x > 8 ∨ y < 0 ∨ y > 8)) ∧
    (∀ b', setE b x y v = .ok b' →
      ¬(x < 0 ∨ x > 8 ∨ y < 0 ∨ y > 8) ∧ ¬(v < 0 ∨ v > 9)) := by
  refine ⟨?_, ?_, ?_, ?_⟩
  · intro h
    unfold getE setE deleteE candidatesE
    rw [if_pos h, if_pos h, if_pos h, if_pos h]
    exact ⟨rfl, rfl, rfl, rfl⟩
  · intro h hv
    unfold setE
    rw [if_neg h, if_pos hv]
  · intro w hw h
    unfold getE at hw
    rw [if_pos h] at hw
    cases hw
  · intro b' hb'
    by_cases h : x < 0 ∨ x > 8 ∨ y < 0 ∨ y > 8
    · unfold setE at hb'
      rw [if_pos h] at hb'
      cases hb'
    · refine ⟨h, ?_⟩
      intro hv
      unfold setE at hb'
      rw [if_neg h, if_pos hv] at hb'
      cases hb'

/-- C10: an in-bounds `set` with an in-range value always succeeds and stores
the value with no Sudoku-legality check: on the valid grid `gOneFive` one
successful public `set` call duplicates the 5 in row 0 and flips the validity
check to false. -/
theorem set_unchecked_legality (b : Board) (x y v : Int)
    (hxy : ¬(x < 0 ∨ x > 8 ∨ y < 0 ∨ y > 8)) (hv : ¬(v < 0 ∨ v > 9)) :
    setE b x y v = .ok (setCell b x.toNat y.toNat v.toNat) ∧
    okay gOneFive = true ∧
    setE gOneFive 1 0 5 = .ok (setCell gOneFive 1 0 5) ∧
    okay (setCell gOneFive 1 0 5) = false := by
  refine ⟨?_, by decide, rfl, by decide⟩
  unfold setE
  rw [if_neg hxy, if_neg hv]

theorem set_unchecked_legality_witness :
    setE gOneFive 1 0 5 =
      .ok (setCell gOneFive (1 : Int).toNat (0 : Int).toNat (5 : Int).toNat) ∧
    okay gOneFive = true ∧
    setE gOneFive 1 0 5 = .ok (setCell gOneFive 1 0 5) ∧
    okay (setCell gOneFive 1 0 5) = false :=
  set_unchecked_legality gOneFive 1 0 5 (by decide) (by decide)

end Sudoku
